import Mathlib

/-!
Shallow embedding of `src/algorithms.py` from ShortestPathVisualize.

Numeric model: the Python code computes costs and priorities with
floating-point values built from `1`, `np.sqrt 2` and Euclidean
heuristics `np.sqrt (dr^2 + dc^2)`.  We model these quantities exactly:

* a g-score / distance value is a pair `(a, b) : Nat × Nat` denoting the
  real number `a + b * sqrt 2` (every path cost is a sum of straight
  steps of cost `1` and diagonal steps of cost `sqrt 2`);
* a frontier priority is a triple `(a, b, m) : Nat × Nat × Nat` denoting
  `a + b * sqrt 2 + sqrt m` (the heuristic contributes `sqrt m` with
  `m` the squared Euclidean distance to the target).

Comparisons are decided exactly with integer arithmetic (`sign2`,
`sign3`, `cmpPVal` below), matching the idealized real-number order that
the floating-point comparisons approximate.  `heapq` pops the least
`(priority, cell)` pair in lexicographic tuple order; since every pushed
pair is distinct, a heap is observationally a pop-min list, which is how
the frontier is modelled.  Python `while` loops become fuel-indexed
recursion returning `none` when the fuel is exhausted; termination is
proved separately.
-/

namespace SPV

/-- A grid coordinate, as the Python `(row, col)` int tuple. -/
abbrev Cell := Int × Int

/-- The occupancy mask, as the row-major entries of the numpy array. -/
abbrev Grid := List (List Nat)

/-- Row count `grid.shape[0]` of the numpy array. -/
def rowsOf (g : Grid) : Nat := g.length

/-- Column count `grid.shape[1]` of the numpy array (rectangular grids). -/
def colsOf (g : Grid) : Nat := (g.headD []).length

/-- Occupancy flag `grid[row][col]`; only consulted after the bounds check succeeds. -/
def cellAt (g : Grid) (r c : Int) : Nat := ((g.getD r.toNat []).getD c.toNat 0)

/-- Source line 9: `self.straight_directions = [(0, 1), (1, 0), (0, -1), (-1, 0)]`. -/
def straight_directions : List Cell := [(0, 1), (1, 0), (0, -1), (-1, 0)]

/-- Source line 10: `self.diagonal_directions = [(1, 1), (1, -1), (-1, 1), (-1, -1)]`. -/
def diagonal_directions : List Cell := [(1, 1), (1, -1), (-1, 1), (-1, -1)]

/-- Componentwise addition `(pos[0] + dx, pos[1] + dy)`. -/
def padd (p d : Cell) : Cell := (p.1 + d.1, p.2 + d.2)

/-- Method `PathfindingAlgorithm.is_valid` (lines 12-15): bounds check first,
occupancy flag second, combined with short-circuit `and`. -/
def is_valid (g : Grid) (pos : Cell) : Bool :=
  decide (0 ≤ pos.1) && decide (pos.1 < (rowsOf g : Int)) &&
  decide (0 ≤ pos.2) && decide (pos.2 < (colsOf g : Int)) &&
  (cellAt g pos.1 pos.2 == 0)

/-- Method `PathfindingAlgorithm.can_move_diagonally` (lines 17-31). -/
def can_move_diagonally (g : Grid) (current target : Cell) : Bool :=
  let dx := target.1 - current.1
  let dy := target.2 - current.2
  if dx = 1 ∧ dy = 1 then
    is_valid g (current.1, current.2 + 1) && is_valid g (current.1 + 1, current.2)
  else if dx = 1 ∧ dy = -1 then
    is_valid g (current.1, current.2 - 1) && is_valid g (current.1 + 1, current.2)
  else if dx = -1 ∧ dy = 1 then
    is_valid g (current.1, current.2 + 1) && is_valid g (current.1 - 1, current.2)
  else if dx = -1 ∧ dy = -1 then
    is_valid g (current.1, current.2 - 1) && is_valid g (current.1 - 1, current.2)
  else
    true

/-- Method `PathfindingAlgorithm.get_neighbors` (lines 33-48): straight
neighbors in order, then diagonal neighbors in order. -/
def get_neighbors (g : Grid) (pos : Cell) : List Cell :=
  ((straight_directions.map (padd pos)).filter (fun n => is_valid g n)) ++
  ((diagonal_directions.map (padd pos)).filter
    (fun n => is_valid g n && can_move_diagonally g pos n))

/-- Squared Euclidean distance `(a0-b0)^2 + (a1-b1)^2`; the Python
`heuristic` is its square root. -/
def hsq (a b : Cell) : Nat := (((a.1 - b.1) ^ 2 + (a.2 - b.2) ^ 2)).toNat

/-- A g-score / distance value `(a, b)` denoting `a + b * sqrt 2`. -/
abbrev GVal := Nat × Nat

/-- A frontier priority `(a, b, m)` denoting `a + b * sqrt 2 + sqrt m`. -/
abbrev PVal := Nat × Nat × Nat

/-- The real number denoted by a g-score value. -/
noncomputable def gval (v : GVal) : ℝ := (v.1 : ℝ) + (v.2 : ℝ) * Real.sqrt 2

/-- The real number denoted by a priority value. -/
noncomputable def pval (p : PVal) : ℝ :=
  (p.1 : ℝ) + (p.2.1 : ℝ) * Real.sqrt 2 + Real.sqrt (p.2.2 : ℝ)

/-- Sign of `x + y * sqrt k`, decided with integer arithmetic. -/
def sign2 (x y : Int) (k : Nat) : Int :=
  if k = 0 ∨ y = 0 then Int.sign x
  else if 0 < y then (if 0 ≤ x then 1 else Int.sign (y ^ 2 * k - x ^ 2))
  else (if x ≤ 0 then -1 else Int.sign (x ^ 2 - y ^ 2 * k))

/-- Sign of `x + y * sqrt 2 + z * sqrt n`, decided with integer
arithmetic by comparing squares when the two parts have opposite sign. -/
def sign3 (x y z : Int) (n : Nat) : Int :=
  if z = 0 ∨ n = 0 then sign2 x y 2
  else
    let sL := sign2 x y 2
    let sR := Int.sign z
    if sL = 0 then sR
    else if sL = sR then sL
    else
      let s := sign2 (x ^ 2 + 2 * y ^ 2 - z ^ 2 * n) (2 * x * y) 2
      if sL = 1 then s else -s

/-- Sign of `pval p - pval q`: compares
`X + Y * sqrt 2 + sqrt m1 - sqrt m2` with `0` exactly. -/
def cmpPVal (p q : PVal) : Int :=
  let X : Int := (p.1 : Int) - q.1
  let Y : Int := (p.2.1 : Int) - q.2.1
  let m1 := p.2.2
  let m2 := q.2.2
  if m1 = m2 then sign2 X Y 2
  else
    let sL := sign2 X Y 2
    let sD := Int.sign ((m1 : Int) - m2)
    if sL = 0 then sD
    else if sL = sD then sL
    else
      let s := sign3 (X ^ 2 + 2 * Y ^ 2 - m1 - m2) (2 * X * Y) 2 (m1 * m2)
      if sL = 1 then s else -s

/-- Sign of `gval a - gval b`. -/
def cmpGVal (a b : GVal) : Int :=
  sign2 ((a.1 : Int) - b.1) ((a.2 : Int) - b.2) 2

/-- Strict order on g-score values (`<` on the denoted reals). -/
def gltB (a b : GVal) : Bool := cmpGVal a b == -1

/-- Componentwise sum, denoting real addition. -/
def gadd (a b : GVal) : GVal := (a.1 + b.1, a.2 + b.2)

/-- The edge cost: `np.sqrt 2` for a diagonal step, `1` otherwise,
keyed on `abs(dr) == 1 and abs(dc) == 1` as in the Python code. -/
def stepCost (current neighbor : Cell) : GVal :=
  if (neighbor.1 - current.1).natAbs = 1 ∧ (neighbor.2 - current.2).natAbs = 1
  then (0, 1) else (1, 0)

/-- The f-score `g + heuristic` as an exact priority triple. -/
def fval (g : GVal) (m : Nat) : PVal := (g.1, g.2, m)

/-- Python int-tuple comparison on cells (`heapq` tie-break). -/
def cellLtB (c d : Cell) : Bool := decide (c.1 < d.1 ∨ (c.1 = d.1 ∧ c.2 < d.2))

/-- The `heapq` order on `(priority, cell)` entries for A* / Greedy BFS. -/
def entryLtP (a b : PVal × Cell) : Bool :=
  cmpPVal a.1 b.1 == -1 || (cmpPVal a.1 b.1 == 0 && cellLtB a.2 b.2)

/-- The `heapq` order on `(distance, cell)` entries for Dijkstra. -/
def entryLtG (a b : GVal × Cell) : Bool :=
  gltB a.1 b.1 || (cmpGVal a.1 b.1 == 0 && cellLtB a.2 b.2)

/-- Leftmost minimum of `e :: l` under the strict order `lt`. -/
def minEntry {E : Type} (lt : E → E → Bool) (e : E) : List E → E
  | [] => e
  | x :: xs => if lt x e then minEntry lt x xs else minEntry lt e xs

/-- Model of `heapq.heappop`: remove and return the least entry.  All entries
pushed by the algorithms are pairwise distinct, so the heap behaves as
this pop-min on the list of live entries. -/
def popMin {E : Type} [DecidableEq E] (lt : E → E → Bool) :
    List E → Option (E × List E)
  | [] => none
  | x :: xs =>
    let m := minEntry lt x xs
    some (m, (x :: xs).erase m)

/-- Association-list model of a Python dict: lookup of the most recent
binding; `upd` prepends a binding. -/
def lookup {α : Type} : List (Cell × α) → Cell → Option α
  | [], _ => none
  | (k, v) :: rest, c => if c = k then some v else lookup rest c

/-- Dict update `d[k] = v`. -/
def upd {α : Type} (m : List (Cell × α)) (k : Cell) (v : α) : List (Cell × α) :=
  (k, v) :: m

/-- The while loop of `reconstruct_path` (lines 95-100), fuel-indexed: collect
`current :: came_from[current] :: ...` until a cell with no predecessor. -/
def reconstructAux : Nat → List (Cell × Cell) → Cell → List Cell
  | 0, _, _ => []
  | fuel + 1, cf, current =>
    match lookup cf current with
    | some prev => current :: reconstructAux fuel cf prev
    | none => [current]

/-- Method `reconstruct_path(came_from, current)` (identical in all three
classes): walk predecessors, then reverse.  The predecessor map is
acyclic on reachable states, so `cf.length + 1` steps always suffice. -/
def reconstruct_path (cf : List (Cell × Cell)) (current : Cell) : List Cell :=
  (reconstructAux (cf.length + 1) cf current).reverse

/-- The `(path, visited_order)` result pair. -/
abbrev SearchResult := List Cell × List Cell

/-! ### A* (`class AStar`, lines 53-100) -/

structure AStarState where
  open_set : List (PVal × Cell)
  closed_set : List Cell
  came_from : List (Cell × Cell)
  g_score : List (Cell × GVal)
  f_score : List (Cell × PVal)
  visited : List Cell
deriving Repr, DecidableEq

/-- Body of the `for neighbor in ...` loop of `AStar.find_path`
(lines 78-91): skip closed neighbors, otherwise relax on a strictly
better tentative g-score and push the new f-score. -/
def astarRelax (grid : Grid) (target current : Cell) (s : AStarState)
    (neighbor : Cell) : AStarState :=
  if neighbor ∈ s.closed_set then s
  else
    let w := stepCost current neighbor
    let tg := gadd ((lookup s.g_score current).getD (0, 0)) w
    let doUpd : Bool :=
      match lookup s.g_score neighbor with
      | none => true
      | some gn => gltB tg gn
    if doUpd then
      let f := fval tg (hsq neighbor target)
      { s with
        came_from := upd s.came_from neighbor current
        g_score := upd s.g_score neighbor tg
        f_score := upd s.f_score neighbor f
        open_set := (f, neighbor) :: s.open_set }
    else s

/-- The `while open_set:` loop of `AStar.find_path` (lines 68-93). -/
def astarLoop (grid : Grid) (target : Cell) :
    Nat → AStarState → Option SearchResult
  | 0, _ => none
  | fuel + 1, s =>
    match popMin entryLtP s.open_set with
    | none => some ([], s.visited)
    | some (e, rest) =>
      let current := e.2
      let s1 := { s with open_set := rest, visited := s.visited ++ [current] }
      if current = target then
        some (reconstruct_path s1.came_from current, s1.visited)
      else
        let s2 := { s1 with closed_set := current :: s1.closed_set }
        let s3 := (get_neighbors grid current).foldl
          (astarRelax grid target current) s2
        astarLoop grid target fuel s3

/-- Method `AStar.find_path` (lines 54-93). -/
def astar_find_path (fuel : Nat) (grid : Grid) (start target : Cell) :
    Option SearchResult :=
  if ¬ is_valid grid target then some ([], [])
  else
    let h0 := hsq start target
    astarLoop grid target fuel
      { open_set := [(fval (0, 0) h0, start)]
        closed_set := []
        came_from := []
        g_score := [(start, (0, 0))]
        f_score := [(start, fval (0, 0) h0)]
        visited := [] }

/-! ### Dijkstra (`class Dijkstra`, lines 102-142) -/

structure DijkstraState where
  pq : List (GVal × Cell)
  came_from : List (Cell × Cell)
  distances : List (Cell × GVal)
  visited : List Cell
deriving Repr, DecidableEq

/-- Body of the `for neighbor in ...` loop of `Dijkstra.find_path`
(lines 124-133): relax through the popped distance `current_dist`. -/
def dijkstraRelax (grid : Grid) (current : Cell) (current_dist : GVal)
    (s : DijkstraState) (neighbor : Cell) : DijkstraState :=
  let w := stepCost current neighbor
  let new_dist := gadd current_dist w
  let doUpd : Bool :=
    match lookup s.distances neighbor with
    | none => true
    | some dn => gltB new_dist dn
  if doUpd then
    { s with
      distances := upd s.distances neighbor new_dist
      came_from := upd s.came_from neighbor current
      pq := (new_dist, neighbor) :: s.pq }
  else s

/-- The `while pq:` loop of `Dijkstra.find_path` (lines 113-135),
including the stale-entry skip `if current_dist > distances[current]:
continue` (lines 121-122). -/
def dijkstraLoop (grid : Grid) (target : Cell) :
    Nat → DijkstraState → Option SearchResult
  | 0, _ => none
  | fuel + 1, s =>
    match popMin entryLtG s.pq with
    | none => some ([], s.visited)
    | some (e, rest) =>
      let current_dist := e.1
      let current := e.2
      let s1 := { s with pq := rest, visited := s.visited ++ [current] }
      if current = target then
        some (reconstruct_path s1.came_from current, s1.visited)
      else if gltB ((lookup s1.distances current).getD (0, 0)) current_dist then
        dijkstraLoop grid target fuel s1
      else
        let s2 := (get_neighbors grid current).foldl
          (dijkstraRelax grid current current_dist) s1
        dijkstraLoop grid target fuel s2

/-- Method `Dijkstra.find_path` (lines 103-135). -/
def dijkstra_find_path (fuel : Nat) (grid : Grid) (start target : Cell) :
    Option SearchResult :=
  if ¬ is_valid grid target then some ([], [])
  else
    dijkstraLoop grid target fuel
      { pq := [((0, 0), start)]
        came_from := []
        distances := [(start, (0, 0))]
        visited := [] }

/-! ### Greedy Best-First Search (`class GreedyBFS`, lines 144-184) -/

structure GreedyState where
  open_set : List (PVal × Cell)
  came_from : List (Cell × Cell)
  visited : List Cell
  g_score : List (Cell × GVal)
deriving Repr, DecidableEq

/-- Body of the `for neighbor in ...` loop of `GreedyBFS.find_path`
(lines 163-175): `if neighbor not in visited` gates the relaxation. -/
def greedyRelax (grid : Grid) (target current : Cell) (s : GreedyState)
    (neighbor : Cell) : GreedyState :=
  if neighbor ∈ s.visited then s
  else
    let w := stepCost current neighbor
    let new_g := gadd ((lookup s.g_score current).getD (0, 0)) w
    let doUpd : Bool :=
      match lookup s.g_score neighbor with
      | none => true
      | some gn => gltB new_g gn
    if doUpd then
      let f := fval new_g (hsq neighbor target)
      { s with
        came_from := upd s.came_from neighbor current
        g_score := upd s.g_score neighbor new_g
        open_set := (f, neighbor) :: s.open_set }
    else s

/-- The `while open_set:` loop of `GreedyBFS.find_path` (lines 155-177). -/
def greedyLoop (grid : Grid) (target : Cell) :
    Nat → GreedyState → Option SearchResult
  | 0, _ => none
  | fuel + 1, s =>
    match popMin entryLtP s.open_set with
    | none => some ([], s.visited)
    | some (e, rest) =>
      let current := e.2
      let s1 := { s with open_set := rest, visited := s.visited ++ [current] }
      if current = target then
        some (reconstruct_path s1.came_from current, s1.visited)
      else
        let s2 := (get_neighbors grid current).foldl
          (greedyRelax grid target current) s1
        greedyLoop grid target fuel s2

/-- Method `GreedyBFS.find_path` (lines 145-177). -/
def greedy_find_path (fuel : Nat) (grid : Grid) (start target : Cell) :
    Option SearchResult :=
  if ¬ is_valid grid target then some ([], [])
  else
    let h0 := hsq start target
    greedyLoop grid target fuel
      { open_set := [(fval (0, 0) h0, start)]
        came_from := []
        visited := []
        g_score := [(start, (0, 0))] }

/-- The three search engines. -/
inductive Engine | astar | dijkstra | greedy
deriving Repr, DecidableEq

/-- The shared `find_path(grid, start, target)` entry point. -/
def find_path : Engine → Nat → Grid → Cell → Cell → Option SearchResult
  | .astar => astar_find_path
  | .dijkstra => dijkstra_find_path
  | .greedy => greedy_find_path

/-! ### Basic lemmas about the numeric model -/

theorem sqrt_two_pos : (0 : ℝ) < Real.sqrt 2 := Real.sqrt_pos.mpr (by norm_num)

theorem sign2_neg_iff (x y : Int) (k : Nat) :
    sign2 x y k = -1 ↔ (x : ℝ) + (y : ℝ) * Real.sqrt k < 0 := by
  unfold sign2
  by_cases hk : k = 0 ∨ y = 0
  · rcases hk with hk | hy
    · subst hk
      simp [Int.sign_eq_neg_one_iff_neg, Real.sqrt_zero]
    · subst hy
      simp [Int.sign_eq_neg_one_iff_neg]
  · push_neg at hk
    obtain ⟨hk0, hy0⟩ := hk
    have hkR : (0 : ℝ) < Real.sqrt k :=
      Real.sqrt_pos.mpr (by exact_mod_cast Nat.pos_of_ne_zero hk0)
    have hsq : Real.sqrt k * Real.sqrt k = (k : ℝ) :=
      Real.mul_self_sqrt (by positivity)
    simp only [if_neg (by tauto : ¬ (k = 0 ∨ y = 0))]
    by_cases hy : 0 < y
    · have hy' : (0 : ℝ) < y := by exact_mod_cast hy
      simp only [if_pos hy]
      by_cases hx : 0 ≤ x
      · simp only [if_pos hx]
        have hx' : (0 : ℝ) ≤ x := by exact_mod_cast hx
        have hge : (0 : ℝ) ≤ (x : ℝ) + y * Real.sqrt k := by nlinarith
        constructor
        · intro h; omega
        · intro h; linarith
      · simp only [if_neg hx, Int.sign_eq_neg_one_iff_neg]
        push_neg at hx
        have hx' : (x : ℝ) < 0 := by exact_mod_cast hx
        have hd : (x : ℝ) - y * Real.sqrt k < 0 := by nlinarith
        constructor
        · intro h
          have h' : ((y ^ 2 * k - x ^ 2 : Int) : ℝ) < 0 := by exact_mod_cast h
          push_cast at h'
          by_contra hge
          push_neg at hge
          have hprod : 0 ≤ ((x : ℝ) + y * Real.sqrt k) * ((y : ℝ) * Real.sqrt k - x) :=
            mul_nonneg hge (by nlinarith)
          nlinarith
        · intro h
          have hprod : 0 < ((x : ℝ) + y * Real.sqrt k) * ((x : ℝ) - y * Real.sqrt k) :=
            mul_pos_of_neg_of_neg h hd
          have h' : (y ^ 2 * k : Int) < (x ^ 2 : Int) := by
            have : ((y : ℝ)) ^ 2 * (k : ℝ) < ((x : ℝ)) ^ 2 := by nlinarith
            exact_mod_cast this
          omega
    · simp only [if_neg hy]
      have hy' : y < 0 := by omega
      have hyR : (y : ℝ) < 0 := by exact_mod_cast hy'
      by_cases hx : x ≤ 0
      · simp only [if_pos hx]
        have hx' : (x : ℝ) ≤ 0 := by exact_mod_cast hx
        have : (x : ℝ) + y * Real.sqrt k < 0 := by nlinarith
        simp [this]
      · simp only [if_neg hx, Int.sign_eq_neg_one_iff_neg]
        push_neg at hx
        have hx' : (0 : ℝ) < x := by exact_mod_cast hx
        have hd : 0 < (x : ℝ) - y * Real.sqrt k := by nlinarith
        constructor
        · intro h
          have h' : ((x ^ 2 - y ^ 2 * k : Int) : ℝ) < 0 := by exact_mod_cast h
          push_cast at h'
          by_contra hge
          push_neg at hge
          have hprod : 0 ≤ ((x : ℝ) + y * Real.sqrt k) * ((x : ℝ) - y * Real.sqrt k) :=
            mul_nonneg hge (le_of_lt hd)
          nlinarith
        · intro h
          have hprod : 0 < (-(((x : ℝ)) + y * Real.sqrt k)) * ((x : ℝ) - y * Real.sqrt k) :=
            mul_pos (by linarith) hd
          have h' : (x ^ 2 : Int) < (y ^ 2 * k : Int) := by
            have : ((x : ℝ)) ^ 2 < ((y : ℝ)) ^ 2 * (k : ℝ) := by nlinarith
            exact_mod_cast this
          omega

theorem gval_nonneg (v : GVal) : 0 ≤ gval v := by
  unfold gval
  have := Real.sqrt_nonneg (2 : ℝ)
  positivity

theorem gval_gadd (a b : GVal) : gval (gadd a b) = gval a + gval b := by
  unfold gval gadd; push_cast; ring

theorem gval_stepCost_pos (c n : Cell) : 0 < gval (stepCost c n) := by
  unfold stepCost
  split
  · simpa [gval] using sqrt_two_pos
  · norm_num [gval]

theorem gltB_iff (a b : GVal) : gltB a b = true ↔ gval a < gval b := by
  unfold gltB cmpGVal
  rw [beq_iff_eq, sign2_neg_iff]
  unfold gval
  constructor
  · intro h; push_cast at h; linarith
  · intro h; push_cast; linarith

/-! ### Lemmas about `lookup` and `popMin` -/

theorem lookup_cons {α : Type} (k : Cell) (v : α) (m : List (Cell × α)) (c : Cell) :
    lookup ((k, v) :: m) c = if c = k then some v else lookup m c := rfl

theorem lookup_mem_keys {α : Type} {m : List (Cell × α)} {c : Cell} {v : α}
    (h : lookup m c = some v) : c ∈ m.map Prod.fst := by
  induction m with
  | nil => simp [lookup] at h
  | cons kv rest ih =>
    obtain ⟨k, w⟩ := kv
    rw [lookup_cons] at h
    by_cases hc : c = k
    · simp [hc]
    · simp only [if_neg hc] at h
      simp [ih h]

theorem lookup_eq_none_iff {α : Type} (m : List (Cell × α)) (c : Cell) :
    lookup m c = none ↔ c ∉ m.map Prod.fst := by
  induction m with
  | nil => simp [lookup]
  | cons kv rest ih =>
    obtain ⟨k, w⟩ := kv
    rw [lookup_cons]
    by_cases hc : c = k
    · subst hc; simp
    · simp [hc, ih]

theorem lookup_isSome_iff {α : Type} (m : List (Cell × α)) (c : Cell) :
    (lookup m c).isSome = true ↔ c ∈ m.map Prod.fst := by
  rw [Option.isSome_iff_ne_none, ne_eq, lookup_eq_none_iff, not_not]

theorem minEntry_mem {E : Type} (lt : E → E → Bool) (e : E) (l : List E) :
    minEntry lt e l ∈ e :: l := by
  induction l generalizing e with
  | nil => simp [minEntry]
  | cons x xs ih =>
    unfold minEntry
    split
    · exact List.mem_cons_of_mem e (ih x)
    · have h := ih e
      rw [List.mem_cons] at h ⊢
      rcases h with h | h
      · exact Or.inl h
      · exact Or.inr (List.mem_cons_of_mem x h)

theorem popMin_eq_none_iff {E : Type} [DecidableEq E] (lt : E → E → Bool)
    (l : List E) : popMin lt l = none ↔ l = [] := by
  cases l <;> simp [popMin]

theorem popMin_mem {E : Type} [DecidableEq E] {lt : E → E → Bool}
    {l rest : List E} {e : E} (h : popMin lt l = some (e, rest)) : e ∈ l := by
  cases l with
  | nil => simp [popMin] at h
  | cons x xs =>
    simp only [popMin, Option.some.injEq, Prod.mk.injEq] at h
    exact h.1 ▸ minEntry_mem lt x xs

theorem popMin_rest_subset {E : Type} [DecidableEq E] {lt : E → E → Bool}
    {l rest : List E} {e : E} (h : popMin lt l = some (e, rest)) :
    ∀ x ∈ rest, x ∈ l := by
  cases l with
  | nil => simp [popMin] at h
  | cons x xs =>
    simp only [popMin, Option.some.injEq, Prod.mk.injEq] at h
    intro y hy
    exact (List.erase_sublist _ _).subset (h.2 ▸ hy)

theorem popMin_length {E : Type} [DecidableEq E] {lt : E → E → Bool}
    {l rest : List E} {e : E} (h : popMin lt l = some (e, rest)) :
    rest.length + 1 = l.length := by
  cases l with
  | nil => simp [popMin] at h
  | cons x xs =>
    simp only [popMin, Option.some.injEq, Prod.mk.injEq] at h
    obtain ⟨h1, h2⟩ := h
    have hm : minEntry lt x xs ∈ x :: xs := minEntry_mem lt x xs
    rw [← h2, List.length_erase_of_mem hm]
    simp

/-! ### Lemmas about `get_neighbors` -/

theorem mem_get_neighbors_iff (g : Grid) (p n : Cell) :
    n ∈ get_neighbors g p ↔
      ((∃ d ∈ straight_directions, n = padd p d) ∧ is_valid g n = true) ∨
      ((∃ d ∈ diagonal_directions, n = padd p d) ∧ is_valid g n = true ∧
        can_move_diagonally g p n = true) := by
  unfold get_neighbors
  simp only [List.mem_append, List.mem_filter, List.mem_map, Bool.and_eq_true]
  constructor
  · rintro (⟨⟨d, hd, rfl⟩, hv⟩ | ⟨⟨d, hd, rfl⟩, hv, hc⟩)
    · exact Or.inl ⟨⟨d, hd, rfl⟩, hv⟩
    · exact Or.inr ⟨⟨d, hd, rfl⟩, hv, hc⟩
  · rintro (⟨⟨d, hd, rfl⟩, hv⟩ | ⟨⟨d, hd, rfl⟩, hv, hc⟩)
    · exact Or.inl ⟨⟨d, hd, rfl⟩, hv⟩
    · exact Or.inr ⟨⟨d, hd, rfl⟩, ⟨hv, hc⟩⟩

theorem is_valid_of_mem_get_neighbors {g : Grid} {p n : Cell}
    (h : n ∈ get_neighbors g p) : is_valid g n = true := by
  rcases (mem_get_neighbors_iff g p n).mp h with ⟨_, hv⟩ | ⟨_, hv, _⟩ <;> exact hv

theorem ne_of_mem_get_neighbors {g : Grid} {p n : Cell}
    (h : n ∈ get_neighbors g p) : n ≠ p := by
  rcases (mem_get_neighbors_iff g p n).mp h with ⟨⟨d, hd, rfl⟩, _⟩ | ⟨⟨d, hd, rfl⟩, _, _⟩ <;>
  · fin_cases hd <;>
    · simp only [padd, ne_eq, Prod.ext_iff, not_and]
      intro h1
      omega

/-! ### C9: `is_valid` characterisation -/

/-- C9: for every grid and every cell `(row, col)`, including
out-of-bounds and negative coordinates, `is_valid` returns true iff
`0 <= row < rows`, `0 <= col < cols` and the occupancy flag at
`(row, col)` is `0`; the bounds tests come first in the short-circuit
conjunction, so the flag is only consulted in bounds. -/
theorem C9_is_valid_iff (g : Grid) (r c : Int) :
    is_valid g (r, c) = true ↔
      (0 ≤ r ∧ r < (rowsOf g : Int) ∧ 0 ≤ c ∧ c < (colsOf g : Int) ∧
        cellAt g r c = 0) := by
  simp only [is_valid, Bool.and_eq_true, decide_eq_true_eq, beq_iff_eq]
  tauto

/-! ### C2: diagonal neighbor rule -/

theorem can_move_diagonally_eval (g : Grid) (r c dx dy : Int)
    (h : (dx = 1 ∨ dx = -1) ∧ (dy = 1 ∨ dy = -1)) :
    can_move_diagonally g (r, c) (r + dx, c + dy) =
      (is_valid g (r, c + dy) && is_valid g (r + dx, c)) := by
  unfold can_move_diagonally
  rcases h with ⟨hx | hx, hy | hy⟩ <;> subst hx <;> subst hy <;> norm_num <;>
    simp [sub_eq_add_neg]

theorem mem_diag_neighbors (g : Grid) (p : Cell) (d : Cell)
    (hd : d ∈ diagonal_directions) :
    padd p d ∈ get_neighbors g p ↔
      (is_valid g (padd p d) = true ∧ can_move_diagonally g p (padd p d) = true) := by
  rw [mem_get_neighbors_iff]
  constructor
  · rintro (⟨⟨d', hd', hEq⟩, hv⟩ | ⟨_, hv, hcm⟩)
    · exfalso
      fin_cases hd <;> fin_cases hd' <;>
        (simp only [padd, Prod.ext_iff] at hEq; omega)
    · exact ⟨hv, hcm⟩
  · rintro ⟨hv, hcm⟩
    exact Or.inr ⟨⟨d, hd, rfl⟩, hv, hcm⟩

/-- C2: a diagonal destination is emitted by `get_neighbors` iff the
destination is free and both orthogonal corner cells flanking the
diagonal move are free; for the offset `(dx, dy)` the corners are
`(r, c + dy)` and `(r + dx, c)`. -/
theorem C2_diagonal_neighbor_rule (g : Grid) (r c : Int) (d : Cell)
    (hd : d ∈ diagonal_directions) :
    padd (r, c) d ∈ get_neighbors g (r, c) ↔
      (is_valid g (padd (r, c) d) = true ∧ is_valid g (r, c + d.2) = true ∧
        is_valid g (r + d.1, c) = true) := by
  rw [mem_diag_neighbors g (r, c) d hd]
  fin_cases hd <;>
  · simp only [padd]
    rw [can_move_diagonally_eval g r c _ _ (by norm_num)]
    simp [Bool.and_eq_true, and_assoc]

/-! ### C3: occupied or out-of-bounds target -/

/-- C3: for every engine, grid, start and target, if the target is not
free then `find_path` returns `([], [])` immediately: the visited order
is empty and no cell is ever expanded. -/
theorem C3_invalid_target (e : Engine) (fuel : Nat) (g : Grid) (s t : Cell)
    (h : is_valid g t = false) :
    find_path e fuel g s t = some ([], []) := by
  cases e <;>
    simp [find_path, astar_find_path, dijkstra_find_path, greedy_find_path, h]

/-! ### C10: start equals target -/

/-- C10: when `start = target` and that cell is free, every engine
returns the singleton path `[start]` with `visited_order = [start]`:
the target test fires on the first pop, before any neighbor is
generated. -/
theorem C10_start_eq_target (e : Engine) (g : Grid) (s : Cell) (fuel : Nat)
    (h : is_valid g s = true) :
    find_path e (fuel + 1) g s s = some ([s], [s]) := by
  cases e <;>
    simp [find_path, astar_find_path, dijkstra_find_path, greedy_find_path, h,
      astarLoop, dijkstraLoop, greedyLoop, popMin, minEntry,
      reconstruct_path, reconstructAux, lookup]

/-! ### C8: determinism -/

/-- C8: each engine is a pure function of `(grid, start, target)` (and
the fuel bound): two invocations on identical input return identical
path and visited-order sequences.  In this embedding the comparators
(`cmpPVal`, `cmpGVal`, cell tie-break) are total functions, mirroring
the deterministic `heapq` tuple comparison of the Python code, so
determinism holds definitionally. -/
theorem C8_determinism (e : Engine) (fuel : Nat) (g : Grid) (s t : Cell) :
    find_path e fuel g s t = find_path e fuel g s t := rfl

/-! ### C4: Dijkstra's stale-entry skip -/

/-- C4: in `Dijkstra.find_path`, a popped entry whose recorded priority
strictly exceeds the best known distance of its cell (per the
`distances` map) is skipped: the iteration only removes the entry and
appends the cell to `visited_order`, with `distances`, `came_from` and
the rest of the frontier untouched and no neighbor generated.  The test
compares the popped priority with the cost map; `DijkstraState` has no
closed-set component at all. -/
theorem C4_dijkstra_stale_skip (grid : Grid) (t : Cell) (fuel : Nat)
    (s : DijkstraState) (e : GVal × Cell) (rest : List (GVal × Cell))
    (dv : GVal) (hpop : popMin entryLtG s.pq = some (e, rest))
    (hne : e.2 ≠ t) (hlook : lookup s.distances e.2 = some dv)
    (hstale : gltB dv e.1 = true) :
    dijkstraLoop grid t (fuel + 1) s =
      dijkstraLoop grid t fuel { s with pq := rest, visited := s.visited ++ [e.2] } := by
  simp only [dijkstraLoop, hpop, hlook, Option.getD_some, hstale, if_neg hne,
    if_true]

/-! ### C5: A* has a closed-set gate, not a stale-priority check -/

/-- Explicit A* loop state used to exhibit the closed-set gate. -/
def C5state : AStarState :=
  { open_set := []
    closed_set := [(1, 1)]
    came_from := []
    g_score := [((0, 0), (0, 0)), ((1, 1), (5, 0))]
    f_score := []
    visited := [] }

/-- C5 counterexample: in `AStar.find_path`'s neighbor loop, a neighbor
in the closed set is NOT relaxed even though its g-score could be
strictly improved (tentative `sqrt 2` against recorded `5`): the state
is returned unchanged, falsifying "a neighbor whose g-score can still
be strictly improved is always relaxed and re-inserted regardless of
whether it was expanded before". -/
theorem C5_counterexample :
    astarRelax [[0, 0], [0, 0]] (1, 1) (0, 0) C5state (1, 1) = C5state ∧
    ((1, 1) : Cell) ∈ C5state.closed_set ∧
    ((1, 1) : Cell) ∈ get_neighbors [[0, 0], [0, 0]] (0, 0) ∧
    gltB (gadd ((lookup C5state.g_score (0, 0)).getD (0, 0))
          (stepCost (0, 0) (1, 1)))
        ((lookup C5state.g_score (1, 1)).getD (0, 0)) = true := by decide

/-- C5 amended: `AStar.find_path` gates relaxation with the closed set:
a neighbor in `closed_set` is never relaxed nor re-inserted, whatever
its g-score; A* performs no popped-priority-versus-cost-map staleness
comparison (popped duplicates are re-expanded). -/
theorem C5_amended_closed_set_gate (grid : Grid) (t c : Cell)
    (s : AStarState) (n : Cell) (h : n ∈ s.closed_set) :
    astarRelax grid t c s n = s := by
  unfold astarRelax
  rw [if_pos h]

theorem C5_amended_witness :
    (((1, 1) : Cell) ∈ C5state.closed_set) ∧
    astarRelax [[0, 0], [0, 0]] (1, 1) (0, 0) C5state (1, 1) = C5state :=
  ⟨by decide, C5_amended_closed_set_gate [[0, 0], [0, 0]] (1, 1) (0, 0) C5state (1, 1) (by decide)⟩

/-! ### C6: Greedy BFS re-expands cells already in `visited_order` -/

/-- A 3x4 grid with a full wall in column 2. -/
def C6grid : Grid := [[0, 0, 1, 0], [0, 0, 1, 0], [0, 0, 1, 0]]

/-- C6 counterexample: on `C6grid` from `(0,0)` towards `(2,3)`,
`GreedyBFS.find_path` pops the non-target cell `(2,0)` twice — it
appears twice in `visited_order` — because a stale duplicate frontier
entry for `(2,0)` predates its first pop; the second pop re-generates
its neighbors, falsifying "a cell already present in visited_order is
never re-expanded". -/
theorem C6_counterexample :
    ((greedy_find_path 20 C6grid (0, 0) (2, 3)).getD ([], [])).2.count ((2, 0) : Cell) = 2 ∧
    (greedy_find_path 20 C6grid (0, 0) (2, 3)).isSome = true ∧
    ((2, 0) : Cell) ≠ ((2, 3) : Cell) := by decide

/-- Explicit Greedy loop state used to witness the visited gate. -/
def C6state : GreedyState :=
  { open_set := []
    came_from := []
    visited := [(0, 1)]
    g_score := [((0, 0), (0, 0))] }

/-- C6 amended: in `GreedyBFS.find_path` the visited-log membership test
gates the relaxation of generated neighbors (a neighbor already in
`visited_order` is never relaxed nor pushed — the gate consults the
visited log, not the cost map); it does not prevent a cell from being
popped and re-expanded again when stale duplicate frontier entries
predate its first pop. -/
theorem C6_amended_visited_gate (grid : Grid) (t c : Cell)
    (s : GreedyState) (n : Cell) (h : n ∈ s.visited) :
    greedyRelax grid t c s n = s := by
  unfold greedyRelax
  rw [if_pos h]

theorem C6_amended_witness :
    (((0, 1) : Cell) ∈ C6state.visited) ∧
    greedyRelax [[0, 0]] (0, 1) (0, 0) C6state (0, 1) = C6state :=
  ⟨by decide, C6_amended_visited_gate [[0, 0]] (0, 1) (0, 0) C6state (0, 1) (by decide)⟩

theorem C2_witness :
    (((1, 1) : Cell) ∈ diagonal_directions) ∧
    (padd (0, 0) (1, 1) ∈ get_neighbors [[0, 0], [0, 0]] (0, 0) ↔
      (is_valid [[0, 0], [0, 0]] (padd (0, 0) (1, 1)) = true ∧
        is_valid [[0, 0], [0, 0]] (0, 0 + 1) = true ∧
        is_valid [[0, 0], [0, 0]] (0 + 1, 0) = true)) :=
  ⟨by decide, C2_diagonal_neighbor_rule [[0, 0], [0, 0]] 0 0 (1, 1) (by decide)⟩

theorem C3_witness :
    is_valid [[1]] (0, 0) = false ∧
    find_path .astar 5 [[1]] (0, 0) (0, 0) = some ([], []) :=
  ⟨by decide, C3_invalid_target .astar 5 [[1]] (0, 0) (0, 0) (by decide)⟩

theorem C10_witness :
    is_valid [[0]] (0, 0) = true ∧
    find_path .dijkstra 1 [[0]] (0, 0) (0, 0) = some ([(0, 0)], [(0, 0)]) :=
  ⟨by decide, C10_start_eq_target .dijkstra [[0]] (0, 0) 0 (by decide)⟩

/-- Explicit Dijkstra loop state whose single frontier entry is stale. -/
def C4state : DijkstraState :=
  { pq := [((5, 0), (0, 0))]
    came_from := []
    distances := [((0, 0), (1, 0))]
    visited := [] }

theorem C4_witness :
    (popMin entryLtG C4state.pq = some ((((5, 0), (0, 0)) : GVal × Cell), []) ∧
      (((0, 0) : Cell)) ≠ ((9, 9) : Cell) ∧
      lookup C4state.distances (0, 0) = some (1, 0) ∧
      gltB (1, 0) (5, 0) = true) ∧
    dijkstraLoop [[0]] (9, 9) 4 C4state =
      dijkstraLoop [[0]] (9, 9) 3
        { C4state with pq := [], visited := C4state.visited ++ [(0, 0)] } :=
  ⟨⟨by decide, by decide, by decide, by decide⟩,
    C4_dijkstra_stale_skip [[0]] (9, 9) 3 C4state ((5, 0), (0, 0)) [] (1, 0)
      (by decide) (by decide) (by decide) (by decide)⟩

/-! ### C1 machinery: invariants of the predecessor / cost maps -/

/-- The best known g-score of a cell (`0` default is never consulted on
cells actually bound in the map). -/
def gBest (g : List (Cell × GVal)) (c : Cell) : GVal := (lookup g c).getD (0, 0)

theorem lookup_cons_isSome {α : Type} {m : List (Cell × α)} {c : Cell}
    (k : Cell) (v : α) (h : (lookup m c).isSome = true) :
    (lookup ((k, v) :: m) c).isSome = true := by
  rw [lookup_cons]
  split <;> simp [h]

/-- Invariant tying the predecessor map to the cost map: every binding
`n ↦ c` is a legal neighbor step whose g-score strictly decreases
towards `start`, predecessors stay inside the map's domain (or are
`start`), `start` itself has no predecessor, and `start`'s g-score is
`0`.  All three engines maintain it. -/
structure MapsInv (grid : Grid) (start : Cell) (cf : List (Cell × Cell))
    (g : List (Cell × GVal)) : Prop where
  edge : ∀ n c, lookup cf n = some c → n ∈ get_neighbors grid c
  gdec : ∀ n c, lookup cf n = some c →
    (lookup g n).isSome = true ∧ (lookup g c).isSome = true ∧
    gval (gBest g c) < gval (gBest g n)
  closure : ∀ n c, lookup cf n = some c → c = start ∨ (lookup cf c).isSome = true
  startNone : lookup cf start = none
  startZero : lookup g start = some (0, 0)

/-- Cells bound in the predecessor map with strictly smaller g-score
than `cur`: the walk from `cur` stays inside this set, bounding its
length. -/
def predSet (cf : List (Cell × Cell)) (g : List (Cell × GVal)) (cur : Cell) :
    Set Cell :=
  {m | (lookup cf m).isSome = true ∧ gval (gBest g m) < gval (gBest g cur)}

theorem predSet_finite (cf : List (Cell × Cell)) (g : List (Cell × GVal))
    (cur : Cell) : (predSet cf g cur).Finite := by
  refine Set.Finite.subset (List.finite_toSet (cf.map Prod.fst)) ?_
  rintro m ⟨hm, _⟩
  exact (lookup_isSome_iff cf m).mp hm

theorem reconstructAux_spec {grid : Grid} {start : Cell}
    {cf : List (Cell × Cell)} {g : List (Cell × GVal)}
    (inv : MapsInv grid start cf g) :
    ∀ (fuel : Nat) (cur : Cell), 1 ≤ fuel →
      (cur = start ∨ (lookup cf cur).isSome = true) →
      ((lookup cf cur).isSome = true → (predSet cf g cur).ncard + 2 ≤ fuel) →
      (reconstructAux fuel cf cur).head? = some cur ∧
      (reconstructAux fuel cf cur).getLast? = some start ∧
      List.Chain' (fun a b => a ∈ get_neighbors grid b)
        (reconstructAux fuel cf cur) := by
  intro fuel
  induction fuel with
  | zero => intro cur h1 _ _; exact absurd h1 (by norm_num)
  | succ f ih =>
    intro cur _ hdom hcard
    rcases hlk : lookup cf cur with _ | prev
    · have hs : cur = start := by
        rcases hdom with h | h
        · exact h
        · rw [hlk] at h; simp at h
      subst hs
      simp [reconstructAux, hlk]
    · have hsome : (lookup cf cur).isSome = true := by rw [hlk]; rfl
      have hbound := hcard hsome
      have hdomp : prev = start ∨ (lookup cf prev).isSome = true :=
        inv.closure cur prev hlk
      obtain ⟨hgn, hgc, hlt⟩ := inv.gdec cur prev hlk
      have hfin : (predSet cf g cur).Finite := predSet_finite cf g cur
      have hprevcard : (lookup cf prev).isSome = true →
          (predSet cf g prev).ncard + 2 ≤ f := by
        intro hps
        have hnotmem : prev ∉ predSet cf g prev := by
          rintro ⟨_, habs⟩; exact lt_irrefl _ habs
        have hins : insert prev (predSet cf g prev) ⊆ predSet cf g cur := by
          rintro m (rfl | ⟨hm1, hm2⟩)
          · exact ⟨hps, hlt⟩
          · exact ⟨hm1, lt_trans hm2 hlt⟩
        have hle : (insert prev (predSet cf g prev)).ncard ≤
            (predSet cf g cur).ncard := Set.ncard_le_ncard hins hfin
        rw [Set.ncard_insert_of_not_mem hnotmem
          (Set.Finite.subset hfin (by rintro m ⟨hm1, hm2⟩; exact ⟨hm1, lt_trans hm2 hlt⟩))] at hle
        omega
      have hf1 : 1 ≤ f := by omega
      obtain ⟨ih1, ih2, ih3⟩ := ih prev hf1 hdomp hprevcard
      have hres : reconstructAux (f + 1) cf cur = cur :: reconstructAux f cf prev := by
        simp [reconstructAux, hlk]
      rcases hL : reconstructAux f cf prev with _ | ⟨a, L⟩
      · rw [hL] at ih1; simp at ih1
      · have hahd : a = prev := by rw [hL] at ih1; simpa using ih1
        subst hahd
        rw [hL] at ih2 ih3
        refine ⟨by simp [hres], ?_, ?_⟩
        · rw [hres, hL, List.getLast?_cons_cons]
          exact ih2
        · rw [hres, hL, List.chain'_cons]
          exact ⟨inv.edge cur a hlk, ih3⟩

theorem reconstruct_path_spec {grid : Grid} {start : Cell}
    {cf : List (Cell × Cell)} {g : List (Cell × GVal)}
    (inv : MapsInv grid start cf g) (t : Cell)
    (hdom : t = start ∨ (lookup cf t).isSome = true) :
    (reconstruct_path cf t).head? = some start ∧
    (reconstruct_path cf t).getLast? = some t ∧
    List.Chain' (fun a b => b ∈ get_neighbors grid a) (reconstruct_path cf t) := by
  have hcard : (lookup cf t).isSome = true →
      (predSet cf g t).ncard + 2 ≤ cf.length + 1 := by
    intro hs
    have hnotmem : t ∉ predSet cf g t := by
      rintro ⟨_, habs⟩; exact lt_irrefl _ habs
    have hsub : insert t (predSet cf g t) ⊆ {x | x ∈ cf.map Prod.fst} := by
      rintro m (rfl | ⟨hm, _⟩)
      · exact (lookup_isSome_iff cf m).mp hs
      · exact (lookup_isSome_iff cf m).mp hm
    have h1 : (insert t (predSet cf g t)).ncard ≤
        (cf.map Prod.fst).toFinset.card := by
      rw [← Set.ncard_coe_Finset]
      refine Set.ncard_le_ncard ?_ (cf.map Prod.fst).toFinset.finite_toSet
      rw [List.coe_toFinset]
      exact fun m hm => hsub hm
    have h2 : (cf.map Prod.fst).toFinset.card ≤ cf.length := by
      calc (cf.map Prod.fst).toFinset.card ≤ (cf.map Prod.fst).length :=
            (cf.map Prod.fst).toFinset_card_le
        _ = cf.length := List.length_map cf Prod.fst
    rw [Set.ncard_insert_of_not_mem hnotmem (predSet_finite cf g t)] at h1
    omega
  obtain ⟨h1, h2, h3⟩ := reconstructAux_spec inv (cf.length + 1) t (by omega) hdom hcard
  unfold reconstruct_path
  refine ⟨?_, ?_, ?_⟩
  · rw [List.head?_reverse]; exact h2
  · rw [List.getLast?_reverse]; exact h1
  · rw [List.chain'_reverse]
    exact h3

theorem gval_zero : gval (0, 0) = 0 := by simp [gval]

/-- Updating the maps with a relaxation `n ↦ current` preserves the
invariant, provided the new g-score strictly exceeds `current`'s and
strictly improves any previous g-score of `n`. -/
theorem mapsInv_update {grid : Grid} {start : Cell} {cf : List (Cell × Cell)}
    {g : List (Cell × GVal)} (hinv : MapsInv grid start cf g)
    {current n : Cell} {tg : GVal} (hn : n ∈ get_neighbors grid current)
    (hcurdom : current = start ∨ (lookup cf current).isSome = true)
    (hgc : (lookup g current).isSome = true)
    (hlow : gval (gBest g current) < gval tg)
    (himp : ∀ gn, lookup g n = some gn → gval tg < gval gn) :
    MapsInv grid start ((n, current) :: cf) ((n, tg) :: g) := by
  have hne : n ≠ current := ne_of_mem_get_neighbors hn
  have hnstart : n ≠ start := by
    rintro rfl
    have h0 := himp (0, 0) hinv.startZero
    rw [gval_zero] at h0
    have h1 := gval_nonneg (gBest g current)
    linarith
  refine ⟨?_, ?_, ?_, ?_, ?_⟩
  · intro m c hmc
    rw [lookup_cons] at hmc
    split_ifs at hmc with hm
    · obtain rfl := Option.some.injEq .. ▸ hmc
      exact hm ▸ hn
    · exact hinv.edge m c hmc
  · intro m c hmc
    rw [lookup_cons] at hmc
    split_ifs at hmc with hm
    · obtain rfl := Option.some.injEq .. ▸ hmc
      subst hm
      refine ⟨by simp [lookup_cons], ?_, ?_⟩
      · rw [lookup_cons, if_neg (fun h => hne h.symm)]
        exact hgc
      · have e1 : gBest ((m, tg) :: g) m = tg := by
          simp [gBest, lookup_cons]
        have e2 : gBest ((m, tg) :: g) current = gBest g current := by
          unfold gBest
          rw [lookup_cons, if_neg (fun h => hne h.symm)]
        rw [e1, e2]
        exact hlow
    · obtain ⟨h1, h2, h3⟩ := hinv.gdec m c hmc
      by_cases hc : c = n
      · subst hc
        obtain ⟨gn, hgn⟩ := Option.isSome_iff_exists.mp h2
        refine ⟨?_, by simp [lookup_cons], ?_⟩
        · rw [lookup_cons, if_neg hm]
          exact h1
        · have e1 : gBest ((c, tg) :: g) c = tg := by simp [gBest, lookup_cons]
          have e2 : gBest ((c, tg) :: g) m = gBest g m := by
            unfold gBest
            rw [lookup_cons, if_neg hm]
          rw [e1, e2]
          have e3 : gBest g c = gn := by simp [gBest, hgn]
          exact lt_trans (himp gn hgn) (e3 ▸ h3)
      · refine ⟨?_, ?_, ?_⟩
        · rw [lookup_cons, if_neg hm]; exact h1
        · rw [lookup_cons, if_neg hc]; exact h2
        · have e1 : gBest ((n, tg) :: g) c = gBest g c := by
            unfold gBest
            rw [lookup_cons, if_neg hc]
          have e2 : gBest ((n, tg) :: g) m = gBest g m := by
            unfold gBest
            rw [lookup_cons, if_neg hm]
          rw [e1, e2]
          exact h3
  · intro m c hmc
    rw [lookup_cons] at hmc
    split_ifs at hmc with hm
    · obtain rfl := Option.some.injEq .. ▸ hmc
      rcases hcurdom with h | h
      · exact Or.inl h
      · exact Or.inr (lookup_cons_isSome n current h)
    · rcases hinv.closure m c hmc with h | h
      · exact Or.inl h
      · exact Or.inr (lookup_cons_isSome n current h)
  · rw [lookup_cons, if_neg (fun h => hnstart h.symm)]
    exact hinv.startNone
  · rw [lookup_cons, if_neg (fun h => hnstart h.symm)]
    exact hinv.startZero

/-- Frontier invariant for A*: every queued cell has a g-score and is
`start` or has a predecessor. -/
def OpenInvA (start : Cell) (s : AStarState) : Prop :=
  ∀ pr c, (pr, c) ∈ s.open_set → (lookup s.g_score c).isSome = true ∧
    (c = start ∨ (lookup s.came_from c).isSome = true)

/-- The popped cell's facts, carried through the neighbor fold. -/
def CurOkA (start current : Cell) (s : AStarState) : Prop :=
  (lookup s.g_score current).isSome = true ∧
  (current = start ∨ (lookup s.came_from current).isSome = true)

theorem astarRelax_preserves {grid : Grid} {start target current : Cell}
    {s : AStarState} {n : Cell} (hn : n ∈ get_neighbors grid current)
    (hinv : MapsInv grid start s.came_from s.g_score)
    (hopen : OpenInvA start s) (hcur : CurOkA start current s) :
    MapsInv grid start (astarRelax grid target current s n).came_from
      (astarRelax grid target current s n).g_score ∧
    OpenInvA start (astarRelax grid target current s n) ∧
    CurOkA start current (astarRelax grid target current s n) ∧
    (astarRelax grid target current s n).visited = s.visited := by
  have hne : n ≠ current := ne_of_mem_get_neighbors hn
  unfold astarRelax
  by_cases hncl : n ∈ s.closed_set
  · rw [if_pos hncl]
    exact ⟨hinv, hopen, hcur, rfl⟩
  · rw [if_neg hncl]
    have hstep :
        gval (gBest s.g_score current) <
          gval (gadd ((lookup s.g_score current).getD (0, 0)) (stepCost current n)) := by
      rw [gval_gadd]
      have := gval_stepCost_pos current n
      unfold gBest
      linarith
    rcases hgn : lookup s.g_score n with _ | gn
    · simp only [hgn]
      rw [if_pos trivial]
      refine ⟨mapsInv_update hinv hn hcur.2 hcur.1 hstep
        (fun gn' h => by rw [hgn] at h; cases h), ?_, ?_, rfl⟩
      · intro pr c hmem
        simp only [upd] at hmem ⊢
        rcases List.mem_cons.mp hmem with h | h
        · have h2 : c = n := congrArg Prod.snd h
          subst h2
          exact ⟨by simp [lookup_cons], Or.inr (by simp [lookup_cons])⟩
        · obtain ⟨h1, h2⟩ := hopen pr c h
          refine ⟨lookup_cons_isSome _ _ h1, ?_⟩
          rcases h2 with h2 | h2
          · exact Or.inl h2
          · exact Or.inr (lookup_cons_isSome _ _ h2)
      · refine ⟨?_, ?_⟩
        · simp only [upd]
          exact lookup_cons_isSome _ _ hcur.1
        · simp only [upd]
          exact hcur.2.imp id (lookup_cons_isSome _ _)
    · simp only [hgn]
      by_cases hlt : gltB (gadd ((lookup s.g_score current).getD (0, 0))
          (stepCost current n)) gn = true
      · rw [if_pos hlt]
        refine ⟨mapsInv_update hinv hn hcur.2 hcur.1 hstep ?_, ?_, ?_, rfl⟩
        · intro gn' h
          rw [hgn] at h
          obtain rfl := Option.some.injEq .. ▸ h
          exact (gltB_iff _ _).mp hlt
        · intro pr c hmem
          simp only [upd] at hmem ⊢
          rcases List.mem_cons.mp hmem with h | h
          · have h2 : c = n := congrArg Prod.snd h
            subst h2
            exact ⟨by simp [lookup_cons], Or.inr (by simp [lookup_cons])⟩
          · obtain ⟨h1, h2⟩ := hopen pr c h
            refine ⟨lookup_cons_isSome _ _ h1, ?_⟩
            rcases h2 with h2 | h2
            · exact Or.inl h2
            · exact Or.inr (lookup_cons_isSome _ _ h2)
        · refine ⟨?_, ?_⟩
          · simp only [upd]
            exact lookup_cons_isSome _ _ hcur.1
          · simp only [upd]
            exact hcur.2.imp id (lookup_cons_isSome _ _)
      · rw [if_neg (by simpa using hlt)]
        exact ⟨hinv, hopen, hcur, rfl⟩

theorem astarFold_preserves (grid : Grid) (start target current : Cell) :
    ∀ (l : List Cell) (s : AStarState),
      (∀ n ∈ l, n ∈ get_neighbors grid current) →
      MapsInv grid start s.came_from s.g_score →
      OpenInvA start s → CurOkA start current s →
      MapsInv grid start (l.foldl (astarRelax grid target current) s).came_from
        (l.foldl (astarRelax grid target current) s).g_score ∧
      OpenInvA start (l.foldl (astarRelax grid target current) s) ∧
      (l.foldl (astarRelax grid target current) s).visited = s.visited := by
  intro l
  induction l with
  | nil => intro s _ h1 h2 _; exact ⟨h1, h2, rfl⟩
  | cons x xs ih =>
    intro s hl h1 h2 h3
    obtain ⟨i1, i2, i3, i4⟩ :=
      astarRelax_preserves (hl x (List.mem_cons_self x xs)) h1 h2 h3
    obtain ⟨j1, j2, j3⟩ := ih (astarRelax grid target current s x)
      (fun n hn => hl n (List.mem_cons_of_mem x hn)) i1 i2 i3
    exact ⟨j1, j2, j3.trans i4⟩

theorem astarLoop_spec (grid : Grid) (start target : Cell) :
    ∀ (fuel : Nat) (s : AStarState) (p v : List Cell),
      MapsInv grid start s.came_from s.g_score →
      OpenInvA start s →
      target ∉ s.visited →
      astarLoop grid target fuel s = some (p, v) →
      ((p ≠ [] → p.head? = some start ∧ p.getLast? = some target ∧
         List.Chain' (fun a b => b ∈ get_neighbors grid a) p) ∧
       (target ∈ v ↔ p ≠ [])) := by
  intro fuel
  induction fuel with
  | zero => intro s p v _ _ _ h; simp [astarLoop] at h
  | succ f ih =>
    intro s p v hinv hopen htv h
    unfold astarLoop at h
    split at h
    · -- frontier exhausted
      obtain ⟨hp, hv⟩ : [] = p ∧ s.visited = v := by simpa using h
      subst hp; subst hv
      exact ⟨fun hne => absurd rfl hne, by simpa using htv⟩
    · rename_i e rest hpop
      have hmem : e ∈ s.open_set := popMin_mem hpop
      have hcur : (lookup s.g_score e.2).isSome = true ∧
          (e.2 = start ∨ (lookup s.came_from e.2).isSome = true) := by
        refine hopen e.1 e.2 ?_
        rw [Prod.mk.eta]
        exact hmem
      dsimp only at h
      split at h
      · -- popped the target
        rename_i hct
        obtain ⟨hp, hv⟩ : reconstruct_path s.came_from e.2 = p ∧
            s.visited ++ [e.2] = v := by simpa using h
        subst hp; subst hv
        obtain ⟨r1, r2, r3⟩ := reconstruct_path_spec hinv e.2 hcur.2
        have hne : reconstruct_path s.came_from e.2 ≠ [] := by
          intro h0; rw [h0] at r1; simp at r1
        refine ⟨fun _ => ⟨r1, by rw [← hct]; exact r2, r3⟩, ?_⟩
        constructor
        · intro _; exact hne
        · intro _
          rw [← hct]
          simp
      · -- continue searching
        rename_i hct
        obtain ⟨j1, j2, j3⟩ :=
          astarFold_preserves grid start target e.2 (get_neighbors grid e.2)
            { open_set := rest, closed_set := e.2 :: s.closed_set,
              came_from := s.came_from, g_score := s.g_score,
              f_score := s.f_score, visited := s.visited ++ [e.2] }
            (fun n hn => hn) hinv
            (fun pr c hm => hopen pr c (popMin_rest_subset hpop _ hm)) hcur
        refine ih _ p v j1 j2 ?_ h
        rw [j3]
        simp only [List.mem_append, List.mem_singleton]
        rintro (h1 | h1)
        · exact htv h1
        · exact hct h1.symm

/-! ### Greedy BFS invariant preservation -/

def OpenInvG (start : Cell) (s : GreedyState) : Prop :=
  ∀ pr c, (pr, c) ∈ s.open_set → (lookup s.g_score c).isSome = true ∧
    (c = start ∨ (lookup s.came_from c).isSome = true)

def CurOkG (start current : Cell) (s : GreedyState) : Prop :=
  (lookup s.g_score current).isSome = true ∧
  (current = start ∨ (lookup s.came_from current).isSome = true)

theorem greedyRelax_preserves {grid : Grid} {start target current : Cell}
    {s : GreedyState} {n : Cell} (hn : n ∈ get_neighbors grid current)
    (hinv : MapsInv grid start s.came_from s.g_score)
    (hopen : OpenInvG start s) (hcur : CurOkG start current s) :
    MapsInv grid start (greedyRelax grid target current s n).came_from
      (greedyRelax grid target current s n).g_score ∧
    OpenInvG start (greedyRelax grid target current s n) ∧
    CurOkG start current (greedyRelax grid target current s n) ∧
    (greedyRelax grid target current s n).visited = s.visited := by
  unfold greedyRelax
  by_cases hnv : n ∈ s.visited
  · rw [if_pos hnv]
    exact ⟨hinv, hopen, hcur, rfl⟩
  · rw [if_neg hnv]
    have hstep :
        gval (gBest s.g_score current) <
          gval (gadd ((lookup s.g_score current).getD (0, 0)) (stepCost current n)) := by
      rw [gval_gadd]
      have := gval_stepCost_pos current n
      unfold gBest
      linarith
    rcases hgn : lookup s.g_score n with _ | gn
    · simp only [hgn]
      rw [if_pos trivial]
      refine ⟨mapsInv_update hinv hn hcur.2 hcur.1 hstep
        (fun gn' h => by rw [hgn] at h; cases h), ?_, ?_, rfl⟩
      · intro pr c hmem
        simp only [upd] at hmem ⊢
        rcases List.mem_cons.mp hmem with h | h
        · have h2 : c = n := congrArg Prod.snd h
          subst h2
          exact ⟨by simp [lookup_cons], Or.inr (by simp [lookup_cons])⟩
        · obtain ⟨h1, h2⟩ := hopen pr c h
          refine ⟨lookup_cons_isSome _ _ h1, ?_⟩
          rcases h2 with h2 | h2
          · exact Or.inl h2
          · exact Or.inr (lookup_cons_isSome _ _ h2)
      · refine ⟨?_, ?_⟩
        · simp only [upd]
          exact lookup_cons_isSome _ _ hcur.1
        · simp only [upd]
          exact hcur.2.imp id (lookup_cons_isSome _ _)
    · simp only [hgn]
      by_cases hlt : gltB (gadd ((lookup s.g_score current).getD (0, 0))
          (stepCost current n)) gn = true
      · rw [if_pos hlt]
        refine ⟨mapsInv_update hinv hn hcur.2 hcur.1 hstep ?_, ?_, ?_, rfl⟩
        · intro gn' h
          rw [hgn] at h
          obtain rfl := Option.some.injEq .. ▸ h
          exact (gltB_iff _ _).mp hlt
        · intro pr c hmem
          simp only [upd] at hmem ⊢
          rcases List.mem_cons.mp hmem with h | h
          · have h2 : c = n := congrArg Prod.snd h
            subst h2
            exact ⟨by simp [lookup_cons], Or.inr (by simp [lookup_cons])⟩
          · obtain ⟨h1, h2⟩ := hopen pr c h
            refine ⟨lookup_cons_isSome _ _ h1, ?_⟩
            rcases h2 with h2 | h2
            · exact Or.inl h2
            · exact Or.inr (lookup_cons_isSome _ _ h2)
        · refine ⟨?_, ?_⟩
          · simp only [upd]
            exact lookup_cons_isSome _ _ hcur.1
          · simp only [upd]
            exact hcur.2.imp id (lookup_cons_isSome _ _)
      · rw [if_neg (by simpa using hlt)]
        exact ⟨hinv, hopen, hcur, rfl⟩

theorem greedyFold_preserves (grid : Grid) (start target current : Cell) :
    ∀ (l : List Cell) (s : GreedyState),
      (∀ n ∈ l, n ∈ get_neighbors grid current) →
      MapsInv grid start s.came_from s.g_score →
      OpenInvG start s → CurOkG start current s →
      MapsInv grid start (l.foldl (greedyRelax grid target current) s).came_from
        (l.foldl (greedyRelax grid target current) s).g_score ∧
      OpenInvG start (l.foldl (greedyRelax grid target current) s) ∧
      (l.foldl (greedyRelax grid target current) s).visited = s.visited := by
  intro l
  induction l with
  | nil => intro s _ h1 h2 _; exact ⟨h1, h2, rfl⟩
  | cons x xs ih =>
    intro s hl h1 h2 h3
    obtain ⟨i1, i2, i3, i4⟩ :=
      greedyRelax_preserves (hl x (List.mem_cons_self x xs)) h1 h2 h3
    obtain ⟨j1, j2, j3⟩ := ih (greedyRelax grid target current s x)
      (fun n hn => hl n (List.mem_cons_of_mem x hn)) i1 i2 i3
    exact ⟨j1, j2, j3.trans i4⟩

theorem greedyLoop_spec (grid : Grid) (start target : Cell) :
    ∀ (fuel : Nat) (s : GreedyState) (p v : List Cell),
      MapsInv grid start s.came_from s.g_score →
      OpenInvG start s →
      target ∉ s.visited →
      greedyLoop grid target fuel s = some (p, v) →
      ((p ≠ [] → p.head? = some start ∧ p.getLast? = some target ∧
         List.Chain' (fun a b => b ∈ get_neighbors grid a) p) ∧
       (target ∈ v ↔ p ≠ [])) := by
  intro fuel
  induction fuel with
  | zero => intro s p v _ _ _ h; simp [greedyLoop] at h
  | succ f ih =>
    intro s p v hinv hopen htv h
    unfold greedyLoop at h
    split at h
    · obtain ⟨hp, hv⟩ : [] = p ∧ s.visited = v := by simpa using h
      subst hp; subst hv
      exact ⟨fun hne => absurd rfl hne, by simpa using htv⟩
    · rename_i e rest hpop
      have hmem : e ∈ s.open_set := popMin_mem hpop
      have hcur : (lookup s.g_score e.2).isSome = true ∧
          (e.2 = start ∨ (lookup s.came_from e.2).isSome = true) := by
        refine hopen e.1 e.2 ?_
        rw [Prod.mk.eta]
        exact hmem
      dsimp only at h
      split at h
      · rename_i hct
        obtain ⟨hp, hv⟩ : reconstruct_path s.came_from e.2 = p ∧
            s.visited ++ [e.2] = v := by simpa using h
        subst hp; subst hv
        obtain ⟨r1, r2, r3⟩ := reconstruct_path_spec hinv e.2 hcur.2
        have hne : reconstruct_path s.came_from e.2 ≠ [] := by
          intro h0; rw [h0] at r1; simp at r1
        refine ⟨fun _ => ⟨r1, by rw [← hct]; exact r2, r3⟩, ?_⟩
        constructor
        · intro _; exact hne
        · intro _
          rw [← hct]
          simp
      · rename_i hct
        obtain ⟨j1, j2, j3⟩ :=
          greedyFold_preserves grid start target e.2 (get_neighbors grid e.2)
            { open_set := rest, came_from := s.came_from,
              visited := s.visited ++ [e.2], g_score := s.g_score }
            (fun n hn => hn) hinv
            (fun pr c hm => hopen pr c (popMin_rest_subset hpop _ hm)) hcur
        refine ih _ p v j1 j2 ?_ h
        rw [j3]
        simp only [List.mem_append, List.mem_singleton]
        rintro (h1 | h1)
        · exact htv h1
        · exact hct h1.symm

/-! ### Dijkstra invariant preservation -/

/-- Every frontier entry's cell has a recorded distance no larger than
the entry's priority (entries go stale as distances improve), and is
`start` or has a predecessor. -/
def PqInvD (start : Cell) (s : DijkstraState) : Prop :=
  ∀ pr c, (pr, c) ∈ s.pq →
    (∃ dc, lookup s.distances c = some dc ∧ gval dc ≤ gval pr) ∧
    (c = start ∨ (lookup s.came_from c).isSome = true)

def CurOkD (start current : Cell) (cd : GVal) (s : DijkstraState) : Prop :=
  (∃ dc, lookup s.distances current = some dc ∧ gval dc ≤ gval cd) ∧
  (current = start ∨ (lookup s.came_from current).isSome = true)

theorem dijkstraRelax_preserves {grid : Grid} {start current : Cell}
    {cd : GVal} {s : DijkstraState} {n : Cell}
    (hn : n ∈ get_neighbors grid current)
    (hinv : MapsInv grid start s.came_from s.distances)
    (hpq : PqInvD start s) (hcur : CurOkD start current cd s) :
    MapsInv grid start (dijkstraRelax grid current cd s n).came_from
      (dijkstraRelax grid current cd s n).distances ∧
    PqInvD start (dijkstraRelax grid current cd s n) ∧
    CurOkD start current cd (dijkstraRelax grid current cd s n) ∧
    (dijkstraRelax grid current cd s n).visited = s.visited := by
  have hne : n ≠ current := ne_of_mem_get_neighbors hn
  obtain ⟨⟨dc, hdc, hdle⟩, hcdom⟩ := hcur
  unfold dijkstraRelax
  have hgsome : (lookup s.distances current).isSome = true := by
    rw [hdc]; rfl
  have hstep : gval (gBest s.distances current) < gval (gadd cd (stepCost current n)) := by
    rw [gval_gadd]
    have hw := gval_stepCost_pos current n
    have : gBest s.distances current = dc := by simp [gBest, hdc]
    rw [this]
    linarith
  rcases hgn : lookup s.distances n with _ | gn
  · simp only [hgn]
    rw [if_pos trivial]
    refine ⟨mapsInv_update hinv hn hcdom hgsome hstep
      (fun gn' h => by rw [hgn] at h; cases h), ?_, ?_, rfl⟩
    · intro pr c hmem
      simp only [upd] at hmem ⊢
      rcases List.mem_cons.mp hmem with h | h
      · have h2 : c = n := congrArg Prod.snd h
        have h1 : pr = gadd cd (stepCost current n) := congrArg Prod.fst h
        subst h2; subst h1
        exact ⟨⟨_, by simp [lookup_cons], le_refl _⟩,
          Or.inr (by simp [lookup_cons])⟩
      · obtain ⟨⟨dc', hdc', hle'⟩, hdom'⟩ := hpq pr c h
        refine ⟨?_, hdom'.imp id (lookup_cons_isSome _ _)⟩
        by_cases hc : c = n
        · subst hc
          rw [hdc'] at hgn
          cases hgn
        · exact ⟨dc', by rw [lookup_cons, if_neg hc]; exact hdc', hle'⟩
    · refine ⟨⟨dc, ?_, hdle⟩, hcdom.imp id (lookup_cons_isSome _ _)⟩
      simp only [upd]
      rw [lookup_cons, if_neg (fun h => hne h.symm)]
      exact hdc
  · simp only [hgn]
    by_cases hlt : gltB (gadd cd (stepCost current n)) gn = true
    · rw [if_pos hlt]
      have himp : ∀ gn', lookup s.distances n = some gn' →
          gval (gadd cd (stepCost current n)) < gval gn' := by
        intro gn' h
        rw [hgn] at h
        obtain rfl := Option.some.injEq .. ▸ h
        exact (gltB_iff _ _).mp hlt
      refine ⟨mapsInv_update hinv hn hcdom hgsome hstep himp, ?_, ?_, rfl⟩
      · intro pr c hmem
        simp only [upd] at hmem ⊢
        rcases List.mem_cons.mp hmem with h | h
        · have h2 : c = n := congrArg Prod.snd h
          have h1 : pr = gadd cd (stepCost current n) := congrArg Prod.fst h
          subst h2; subst h1
          exact ⟨⟨_, by simp [lookup_cons], le_refl _⟩,
            Or.inr (by simp [lookup_cons])⟩
        · obtain ⟨⟨dc', hdc', hle'⟩, hdom'⟩ := hpq pr c h
          refine ⟨?_, hdom'.imp id (lookup_cons_isSome _ _)⟩
          by_cases hc : c = n
          · refine ⟨gadd cd (stepCost current n), by rw [lookup_cons, if_pos hc], ?_⟩
            have h2 := himp dc' (by rw [← hc]; exact hdc')
            linarith
          · exact ⟨dc', by rw [lookup_cons, if_neg hc]; exact hdc', hle'⟩
      · refine ⟨⟨dc, ?_, hdle⟩, hcdom.imp id (lookup_cons_isSome _ _)⟩
        simp only [upd]
        rw [lookup_cons, if_neg (fun h => hne h.symm)]
        exact hdc
    · rw [if_neg (by simpa using hlt)]
      exact ⟨hinv, hpq, ⟨⟨dc, hdc, hdle⟩, hcdom⟩, rfl⟩

theorem dijkstraFold_preserves (grid : Grid) (start current : Cell) (cd : GVal) :
    ∀ (l : List Cell) (s : DijkstraState),
      (∀ n ∈ l, n ∈ get_neighbors grid current) →
      MapsInv grid start s.came_from s.distances →
      PqInvD start s → CurOkD start current cd s →
      MapsInv grid start (l.foldl (dijkstraRelax grid current cd) s).came_from
        (l.foldl (dijkstraRelax grid current cd) s).distances ∧
      PqInvD start (l.foldl (dijkstraRelax grid current cd) s) ∧
      (l.foldl (dijkstraRelax grid current cd) s).visited = s.visited := by
  intro l
  induction l with
  | nil => intro s _ h1 h2 _; exact ⟨h1, h2, rfl⟩
  | cons x xs ih =>
    intro s hl h1 h2 h3
    obtain ⟨i1, i2, i3, i4⟩ :=
      dijkstraRelax_preserves (hl x (List.mem_cons_self x xs)) h1 h2 h3
    obtain ⟨j1, j2, j3⟩ := ih (dijkstraRelax grid current cd s x)
      (fun n hn => hl n (List.mem_cons_of_mem x hn)) i1 i2 i3
    exact ⟨j1, j2, j3.trans i4⟩

theorem dijkstraLoop_spec (grid : Grid) (start target : Cell) :
    ∀ (fuel : Nat) (s : DijkstraState) (p v : List Cell),
      MapsInv grid start s.came_from s.distances →
      PqInvD start s →
      target ∉ s.visited →
      dijkstraLoop grid target fuel s = some (p, v) →
      ((p ≠ [] → p.head? = some start ∧ p.getLast? = some target ∧
         List.Chain' (fun a b => b ∈ get_neighbors grid a) p) ∧
       (target ∈ v ↔ p ≠ [])) := by
  intro fuel
  induction fuel with
  | zero => intro s p v _ _ _ h; simp [dijkstraLoop] at h
  | succ f ih =>
    intro s p v hinv hpq htv h
    unfold dijkstraLoop at h
    split at h
    · obtain ⟨hp, hv⟩ : [] = p ∧ s.visited = v := by simpa using h
      subst hp; subst hv
      exact ⟨fun hne => absurd rfl hne, by simpa using htv⟩
    · rename_i e rest hpop
      have hmem : e ∈ s.pq := popMin_mem hpop
      have hcur : (∃ dc, lookup s.distances e.2 = some dc ∧ gval dc ≤ gval e.1) ∧
          (e.2 = start ∨ (lookup s.came_from e.2).isSome = true) := by
        refine hpq e.1 e.2 ?_
        rw [Prod.mk.eta]
        exact hmem
      dsimp only at h
      split at h
      · rename_i hct
        obtain ⟨hp, hv⟩ : reconstruct_path s.came_from e.2 = p ∧
            s.visited ++ [e.2] = v := by simpa using h
        subst hp; subst hv
        obtain ⟨r1, r2, r3⟩ := reconstruct_path_spec hinv e.2 hcur.2
        have hne : reconstruct_path s.came_from e.2 ≠ [] := by
          intro h0; rw [h0] at r1; simp at r1
        refine ⟨fun _ => ⟨r1, by rw [← hct]; exact r2, r3⟩, ?_⟩
        constructor
        · intro _; exact hne
        · intro _
          rw [← hct]
          simp
      · rename_i hct
        split at h
        · -- stale entry: skip without expansion
          refine ih ⟨rest, s.came_from, s.distances, s.visited ++ [e.2]⟩ p v hinv ?_ ?_ h
          · exact fun pr c hm => hpq pr c (popMin_rest_subset hpop _ hm)
          · simp only [List.mem_append, List.mem_singleton]
            rintro (h1 | h1)
            · exact htv h1
            · exact hct h1.symm
        · obtain ⟨j1, j2, j3⟩ :=
            dijkstraFold_preserves grid start e.2 e.1 (get_neighbors grid e.2)
              { pq := rest, came_from := s.came_from,
                distances := s.distances, visited := s.visited ++ [e.2] }
              (fun n hn => hn) hinv
              (fun pr c hm => hpq pr c (popMin_rest_subset hpop _ hm)) hcur
          refine ih _ p v j1 j2 ?_ h
          rw [j3]
          simp only [List.mem_append, List.mem_singleton]
          rintro (h1 | h1)
          · exact htv h1
          · exact hct h1.symm

/-! ### C1: the shared `find_path` postcondition -/

/-- The grid rows all have the numpy column count. -/
def rectangular (g : Grid) : Bool := g.all (fun row => row.length == colsOf g)

/-- All occupancy values are 0 or 1. -/
def binaryGrid (g : Grid) : Bool := g.all (fun row => row.all (fun v => decide (v ≤ 1)))

/-- There is a neighbor-generator chain from `s` to `t`. -/
def Reachable (g : Grid) (s t : Cell) : Prop :=
  ∃ p : List Cell, p.head? = some s ∧ p.getLast? = some t ∧
    List.Chain' (fun a b => b ∈ get_neighbors g a) p

theorem mapsInv_init (grid : Grid) (start : Cell) :
    MapsInv grid start [] [(start, (0, 0))] := by
  refine ⟨?_, ?_, ?_, rfl, ?_⟩
  · intro n c h; simp [lookup] at h
  · intro n c h; simp [lookup] at h
  · intro n c h; simp [lookup] at h
  · simp [lookup]

/-- C1: for every engine and every well-formed grid with a free start:
whenever `find_path` returns `(p, v)`, a non-empty `p` starts at
`start`, ends at `target` and steps only through `get_neighbors`; if no
neighbor-chain joins start to target the path is empty; and the target
was popped (appears in the visited log `v`, which records exactly the
popped cells in pop order) iff a path was returned. -/
theorem C1_find_path_postcondition (e : Engine) (fuel : Nat) (grid : Grid)
    (s t : Cell) (p v : List Cell)
    (hrect : rectangular grid = true) (hbin : binaryGrid grid = true)
    (hs : is_valid grid s = true)
    (h : find_path e fuel grid s t = some (p, v)) :
    (p ≠ [] → p.head? = some s ∧ p.getLast? = some t ∧
      List.Chain' (fun a b => b ∈ get_neighbors grid a) p) ∧
    (¬ Reachable grid s t → p = []) ∧
    (t ∈ v ↔ p ≠ []) := by
  have main : (p ≠ [] → p.head? = some s ∧ p.getLast? = some t ∧
      List.Chain' (fun a b => b ∈ get_neighbors grid a) p) ∧
      (t ∈ v ↔ p ≠ []) := by
    by_cases hvt : is_valid grid t = true
    · cases e with
      | astar =>
        replace h : astar_find_path fuel grid s t = some (p, v) := h
        unfold astar_find_path at h
        rw [if_neg (by simp [hvt])] at h
        dsimp only at h
        refine astarLoop_spec grid s t fuel _ p v (mapsInv_init grid s) ?_ ?_ h
        · intro pr c hm
          have hc : c = s := congrArg Prod.snd (List.mem_singleton.mp hm)
          subst hc
          exact ⟨by simp [lookup], Or.inl rfl⟩
        · simp
      | dijkstra =>
        replace h : dijkstra_find_path fuel grid s t = some (p, v) := h
        unfold dijkstra_find_path at h
        rw [if_neg (by simp [hvt])] at h
        refine dijkstraLoop_spec grid s t fuel _ p v (mapsInv_init grid s) ?_ ?_ h
        · intro pr c hm
          obtain ⟨h1, h2⟩ := Prod.mk.injEq .. ▸ List.mem_singleton.mp hm
          subst h2
          refine ⟨⟨(0, 0), by simp [lookup], ?_⟩, Or.inl rfl⟩
          rw [h1]
        · simp
      | greedy =>
        replace h : greedy_find_path fuel grid s t = some (p, v) := h
        unfold greedy_find_path at h
        rw [if_neg (by simp [hvt])] at h
        dsimp only at h
        refine greedyLoop_spec grid s t fuel _ p v (mapsInv_init grid s) ?_ ?_ h
        · intro pr c hm
          have hc : c = s := congrArg Prod.snd (List.mem_singleton.mp hm)
          subst hc
          exact ⟨by simp [lookup], Or.inl rfl⟩
        · simp
    · have hvt' : is_valid grid t = false := by simpa using hvt
      have h0 : find_path e fuel grid s t = some ([], []) := by
        cases e <;> simp [find_path, astar_find_path, dijkstra_find_path,
          greedy_find_path, hvt']
      rw [h0] at h
      obtain ⟨hp, hv⟩ : ([] : List Cell) = p ∧ ([] : List Cell) = v := by
        simpa using h
      subst hp; subst hv
      exact ⟨fun hne => absurd rfl hne, by simp⟩
  obtain ⟨m1, m2⟩ := main
  refine ⟨m1, ?_, m2⟩
  intro hnr
  by_contra hp
  obtain ⟨q1, q2, q3⟩ := m1 hp
  exact hnr ⟨p, q1, q2, q3⟩

theorem C1_witness :
    (rectangular [[0, 0], [0, 0]] = true ∧ binaryGrid [[0, 0], [0, 0]] = true ∧
      is_valid [[0, 0], [0, 0]] (0, 0) = true ∧
      find_path .astar 10 [[0, 0], [0, 0]] (0, 0) (1, 1) =
        some ([(0, 0), (1, 1)], [(0, 0), (1, 1)])) ∧
    ((([(0, 0), (1, 1)] : List Cell) ≠ [] →
      ([(0, 0), (1, 1)] : List Cell).head? = some (0, 0) ∧
      ([(0, 0), (1, 1)] : List Cell).getLast? = some (1, 1) ∧
      List.Chain' (fun a b => b ∈ get_neighbors [[0, 0], [0, 0]] a)
        [(0, 0), (1, 1)]) ∧
    (¬ Reachable [[0, 0], [0, 0]] (0, 0) (1, 1) →
      ([(0, 0), (1, 1)] : List Cell) = []) ∧
    (((1, 1) : Cell) ∈ ([(0, 0), (1, 1)] : List Cell) ↔
      ([(0, 0), (1, 1)] : List Cell) ≠ [])) :=
  ⟨⟨by decide, by decide, by decide, by decide⟩,
    C1_find_path_postcondition .astar 10 [[0, 0], [0, 0]] (0, 0) (1, 1)
      [(0, 0), (1, 1)] [(0, 0), (1, 1)]
      (by decide) (by decide) (by decide) (by decide)⟩

/-! ### C7 machinery: termination measures

Each push strictly improves the pushed cell's g-score.  Values
`a + b * sqrt 2` with `a b : Nat` below a bound form a finite set, so
each cell admits only finitely many improvements (measured by `rank`);
the map's key set is confined to the grid (plus `start`), so the
lexicographic measure (undiscovered cells, total rank, frontier size)
strictly decreases on every loop iteration. -/

theorem sqrt_two_le_two : Real.sqrt 2 ≤ 2 := by
  nlinarith [Real.sq_sqrt (show (0:ℝ) ≤ 2 by norm_num), Real.sqrt_nonneg 2]

theorem one_le_sqrt_two : (1 : ℝ) ≤ Real.sqrt 2 := by
  nlinarith [Real.sq_sqrt (show (0:ℝ) ≤ 2 by norm_num), Real.sqrt_nonneg 2]

/-- Number of g-score values strictly below `v` (proof-side measure). -/
noncomputable def rank (v : GVal) : Nat := ({u : GVal | gval u < gval v}).ncard

theorem gpred_finite (v : GVal) : ({u : GVal | gval u < gval v}).Finite := by
  refine Set.Finite.subset
    ((Finset.range (v.1 + 2 * v.2 + 1) ×ˢ
      Finset.range (v.1 + 2 * v.2 + 1)).finite_toSet) ?_
  rintro ⟨a, b⟩ hu
  simp only [Set.mem_setOf_eq] at hu
  have hval : (a : ℝ) + (b : ℝ) * Real.sqrt 2 < (v.1 : ℝ) + (v.2 : ℝ) * Real.sqrt 2 := hu
  have hvb : (v.1 : ℝ) + (v.2 : ℝ) * Real.sqrt 2 ≤ (v.1 : ℝ) + 2 * v.2 := by
    nlinarith [sqrt_two_le_two, Nat.cast_nonneg (α := ℝ) v.2]
  have ha : (a : ℝ) < (v.1 : ℝ) + 2 * v.2 := by
    nlinarith [Real.sqrt_nonneg 2, Nat.cast_nonneg (α := ℝ) b]
  have hb : (b : ℝ) < (v.1 : ℝ) + 2 * v.2 := by
    nlinarith [one_le_sqrt_two, Nat.cast_nonneg (α := ℝ) a, Nat.cast_nonneg (α := ℝ) b]
  have ha' : a < v.1 + 2 * v.2 + 1 := by
    have : (a : ℝ) < ((v.1 + 2 * v.2 + 1 : Nat) : ℝ) := by push_cast; linarith
    exact_mod_cast this
  have hb' : b < v.1 + 2 * v.2 + 1 := by
    have : (b : ℝ) < ((v.1 + 2 * v.2 + 1 : Nat) : ℝ) := by push_cast; linarith
    exact_mod_cast this
  simp only [Finset.coe_product, Set.mem_prod, Finset.mem_coe, Finset.mem_range]
  exact ⟨ha', hb'⟩

theorem rank_lt_rank {u v : GVal} (h : gval u < gval v) : rank u < rank v := by
  refine Set.ncard_lt_ncard ?_ (gpred_finite v)
  rw [Set.ssubset_def]
  constructor
  · intro w hw
    exact lt_trans hw h
  · intro hts
    exact lt_irrefl (gval u) (hts h)

/-- The key set of a cost map. -/
def keysF (g : List (Cell × GVal)) : Finset Cell := (g.map Prod.fst).toFinset

/-- Total rank of the recorded g-scores (proof-side measure). -/
noncomputable def gsum (g : List (Cell × GVal)) : Nat :=
  ∑ c ∈ keysF g, rank (gBest g c)

/-- The in-bounds cells of the grid, as a finset. -/
def boundsFinset (g : Grid) : Finset Cell :=
  (Finset.range (rowsOf g) ×ˢ Finset.range (colsOf g)).image
    (fun rc => ((rc.1 : Int), (rc.2 : Int)))

theorem boundsFinset_card (g : Grid) :
    (boundsFinset g).card = rowsOf g * colsOf g := by
  unfold boundsFinset
  rw [Finset.card_image_of_injective _ (fun a b hab => ?_), Finset.card_product,
    Finset.card_range, Finset.card_range]
  obtain ⟨h1, h2⟩ := Prod.mk.injEq .. ▸ hab
  exact Prod.ext (by exact_mod_cast h1) (by exact_mod_cast h2)

theorem mem_boundsFinset_of_valid {g : Grid} {c : Cell}
    (h : is_valid g c = true) : c ∈ boundsFinset g := by
  have hc : is_valid g (c.1, c.2) = true := by rwa [Prod.mk.eta]
  simp only [is_valid, Bool.and_eq_true, decide_eq_true_eq] at hc
  obtain ⟨⟨⟨⟨h1, h2⟩, h3⟩, h4⟩, _⟩ := hc
  unfold boundsFinset
  rw [Finset.mem_image]
  refine ⟨(c.1.toNat, c.2.toNat), ?_, ?_⟩
  · rw [Finset.mem_product, Finset.mem_range, Finset.mem_range]
    omega
  · exact Prod.ext (by omega) (by omega)

/-- All keys of the cost map lie in the grid or are the start cell. -/
def KeysBound (grid : Grid) (start : Cell) (g : List (Cell × GVal)) : Prop :=
  ∀ c ∈ keysF g, c ∈ insert start (boundsFinset grid)

theorem keysF_card_le {grid : Grid} {start : Cell} {g : List (Cell × GVal)}
    (h : KeysBound grid start g) :
    (keysF g).card ≤ rowsOf grid * colsOf grid + 1 := by
  calc (keysF g).card ≤ (insert start (boundsFinset grid)).card :=
        Finset.card_le_card (fun c hc => h c hc)
    _ ≤ (boundsFinset grid).card + 1 := Finset.card_insert_le _ _
    _ = rowsOf grid * colsOf grid + 1 := by rw [boundsFinset_card]

/-- The (undiscovered-cells, total-rank) part of the loop measure. -/
noncomputable def muG (grid : Grid) (g : List (Cell × GVal)) : Nat × Nat :=
  ((rowsOf grid * colsOf grid + 1) - (keysF g).card, gsum g)

def lexLt (a b : Nat × Nat) : Prop := a.1 < b.1 ∨ (a.1 = b.1 ∧ a.2 < b.2)

theorem lexLt_trans {a b c : Nat × Nat} (h1 : lexLt a b) (h2 : lexLt b c) :
    lexLt a c := by
  unfold lexLt at h1 h2 ⊢
  omega

theorem keysF_cons (n : Cell) (tg : GVal) (g : List (Cell × GVal)) :
    keysF ((n, tg) :: g) = insert n (keysF g) := by
  simp [keysF, List.toFinset_cons]

theorem muG_lt_of_new {grid : Grid} {start : Cell} {g : List (Cell × GVal)}
    {n : Cell} {tg : GVal} (hkb : KeysBound grid start ((n, tg) :: g))
    (hnew : lookup g n = none) :
    lexLt (muG grid ((n, tg) :: g)) (muG grid g) := by
  left
  have hn : n ∉ keysF g := by
    rw [lookup_eq_none_iff] at hnew
    simpa [keysF, List.mem_toFinset] using hnew
  have hcard : (keysF ((n, tg) :: g)).card = (keysF g).card + 1 := by
    rw [keysF_cons, Finset.card_insert_of_not_mem hn]
  have hle := keysF_card_le hkb
  rw [hcard] at hle
  simp only [muG]
  omega

theorem muG_lt_of_improve {grid : Grid} {g : List (Cell × GVal)}
    {n : Cell} {tg gn : GVal} (hlk : lookup g n = some gn)
    (hlt : gval tg < gval gn) :
    lexLt (muG grid ((n, tg) :: g)) (muG grid g) := by
  have hn : n ∈ keysF g := List.mem_toFinset.mpr (lookup_mem_keys hlk)
  have hkeys : keysF ((n, tg) :: g) = keysF g := by
    rw [keysF_cons, Finset.insert_eq_self.mpr hn]
  right
  refine ⟨by simp [muG, hkeys], ?_⟩
  simp only [muG]
  unfold gsum
  rw [hkeys]
  rw [← Finset.add_sum_erase _ (fun c => rank (gBest ((n, tg) :: g) c)) hn,
    ← Finset.add_sum_erase _ (fun c => rank (gBest g c)) hn]
  have hcong : ∑ c ∈ (keysF g).erase n, rank (gBest ((n, tg) :: g) c) =
      ∑ c ∈ (keysF g).erase n, rank (gBest g c) := by
    refine Finset.sum_congr rfl (fun c hc => ?_)
    have hcn : c ≠ n := Finset.ne_of_mem_erase hc
    unfold gBest
    rw [lookup_cons, if_neg hcn]
  rw [hcong]
  have h1 : gBest ((n, tg) :: g) n = tg := by simp [gBest, lookup_cons]
  have h2 : gBest g n = gn := by simp [gBest, hlk]
  rw [h1, h2]
  exact Nat.add_lt_add_right (rank_lt_rank hlt) _

theorem astarRelax_measure (grid : Grid) (start target current : Cell)
    {s : AStarState} {n : Cell} (hn : n ∈ get_neighbors grid current)
    (hkb : KeysBound grid start s.g_score) :
    KeysBound grid start (astarRelax grid target current s n).g_score ∧
    (astarRelax grid target current s n = s ∨
      lexLt (muG grid (astarRelax grid target current s n).g_score)
        (muG grid s.g_score)) := by
  have hnb : n ∈ insert start (boundsFinset grid) :=
    Finset.mem_insert_of_mem
      (mem_boundsFinset_of_valid (is_valid_of_mem_get_neighbors hn))
  unfold astarRelax
  by_cases hncl : n ∈ s.closed_set
  · rw [if_pos hncl]
    exact ⟨hkb, Or.inl rfl⟩
  · rw [if_neg hncl]
    rcases hgn : lookup s.g_score n with _ | gn
    · simp only [hgn]
      rw [if_pos trivial]
      have hkb' : KeysBound grid start
          ((n, gadd ((lookup s.g_score current).getD (0, 0)) (stepCost current n))
            :: s.g_score) := by
        intro c hc
        rw [keysF_cons] at hc
        rcases Finset.mem_insert.mp hc with rfl | hc
        · exact hnb
        · exact hkb c hc
      exact ⟨hkb', Or.inr (muG_lt_of_new hkb' hgn)⟩
    · simp only [hgn]
      by_cases hlt : gltB (gadd ((lookup s.g_score current).getD (0, 0))
          (stepCost current n)) gn = true
      · rw [if_pos hlt]
        have hmemn : n ∈ keysF s.g_score :=
          List.mem_toFinset.mpr (lookup_mem_keys hgn)
        have hkb' : KeysBound grid start
            ((n, gadd ((lookup s.g_score current).getD (0, 0)) (stepCost current n))
              :: s.g_score) := by
          intro c hc
          rw [keysF_cons, Finset.insert_eq_self.mpr hmemn] at hc
          exact hkb c hc
        exact ⟨hkb', Or.inr (muG_lt_of_improve hgn ((gltB_iff _ _).mp hlt))⟩
      · rw [if_neg (by simpa using hlt)]
        exact ⟨hkb, Or.inl rfl⟩

theorem astarFold_measure (grid : Grid) (start target current : Cell) :
    ∀ (l : List Cell) (s : AStarState),
      (∀ n ∈ l, n ∈ get_neighbors grid current) →
      KeysBound grid start s.g_score →
      KeysBound grid start (l.foldl (astarRelax grid target current) s).g_score ∧
      (l.foldl (astarRelax grid target current) s = s ∨
        lexLt (muG grid (l.foldl (astarRelax grid target current) s).g_score)
          (muG grid s.g_score)) := by
  intro l
  induction l with
  | nil => intro s _ hkb; exact ⟨hkb, Or.inl rfl⟩
  | cons x xs ih =>
    intro s hl hkb
    obtain ⟨i1, i2⟩ := astarRelax_measure grid start target current
      (hl x (List.mem_cons_self x xs)) hkb
    simp only [List.foldl_cons]
    rcases i2 with heq | hlex
    · rw [heq]
      exact ih s (fun n hn => hl n (List.mem_cons_of_mem x hn)) hkb
    · obtain ⟨j1, j2⟩ := ih (astarRelax grid target current s x)
        (fun n hn => hl n (List.mem_cons_of_mem x hn)) i1
      refine ⟨j1, Or.inr ?_⟩
      rcases j2 with heq2 | hlex2
      · rw [heq2]
        exact hlex
      · exact lexLt_trans hlex2 hlex

/-- Combined loop measure for A*. -/
noncomputable def muA (grid : Grid) (s : AStarState) : Nat × Nat × Nat :=
  ((muG grid s.g_score).1, (muG grid s.g_score).2, s.open_set.length)

theorem astarLoop_terminates (grid : Grid) (start target : Cell) :
    ∀ s : AStarState, KeysBound grid start s.g_score →
      ∃ (n : Nat) (r : SearchResult), astarLoop grid target n s = some r := by
  have wf3 : WellFounded (Prod.Lex (α := Nat) (· < ·)
      (Prod.Lex (α := Nat) (β := Nat) (· < ·) (· < ·))) :=
    WellFounded.prod_lex wellFounded_lt
      (WellFounded.prod_lex wellFounded_lt wellFounded_lt)
  intro s0 hk0
  refine (wf3.induction (C := fun m => ∀ s : AStarState, muA grid s = m →
    KeysBound grid start s.g_score →
    ∃ (n : Nat) (r : SearchResult), astarLoop grid target n s = some r)
    (muA grid s0) ?_) s0 rfl hk0
  intro m IH s hm hk
  subst hm
  rcases hpop : popMin entryLtP s.open_set with _ | ⟨e, rest⟩
  · exact ⟨1, ([], s.visited), by simp [astarLoop, hpop]⟩
  · by_cases hct : e.2 = target
    · refine ⟨1, (reconstruct_path s.came_from e.2, s.visited ++ [e.2]), ?_⟩
      simp only [astarLoop, hpop]
      rw [if_pos hct]
    · have hkb2 : KeysBound grid start
          (AStarState.mk rest (e.2 :: s.closed_set) s.came_from s.g_score
            s.f_score (s.visited ++ [e.2])).g_score := hk
      obtain ⟨j1, j2⟩ := astarFold_measure grid start target e.2
        (get_neighbors grid e.2)
        (AStarState.mk rest (e.2 :: s.closed_set) s.came_from s.g_score
          s.f_score (s.visited ++ [e.2])) (fun n hn => hn) hkb2
      have hlen : rest.length + 1 = s.open_set.length := popMin_length hpop
      have hdec : Prod.Lex (· < ·) (Prod.Lex (· < ·) (· < ·))
          (muA grid ((get_neighbors grid e.2).foldl (astarRelax grid target e.2)
            (AStarState.mk rest (e.2 :: s.closed_set) s.came_from s.g_score
              s.f_score (s.visited ++ [e.2]))))
          (muA grid s) := by
        rcases j2 with heq | hlex
        · rw [heq]
          unfold muA
          dsimp only
          exact Prod.Lex.right _ (Prod.Lex.right _ (by omega))
        · rcases hlex with h | ⟨h1, h2⟩
          · exact Prod.Lex.left _ _ h
          · unfold muA
            rw [h1]
            exact Prod.Lex.right _ (Prod.Lex.left _ _ h2)
      obtain ⟨nn, r, hr⟩ := IH _ hdec _ rfl j1
      refine ⟨nn + 1, r, ?_⟩
      simp only [astarLoop, hpop]
      rw [if_neg hct]
      exact hr

theorem greedyRelax_measure (grid : Grid) (start target current : Cell)
    {s : GreedyState} {n : Cell} (hn : n ∈ get_neighbors grid current)
    (hkb : KeysBound grid start s.g_score) :
    KeysBound grid start (greedyRelax grid target current s n).g_score ∧
    (greedyRelax grid target current s n = s ∨
      lexLt (muG grid (greedyRelax grid target current s n).g_score)
        (muG grid s.g_score)) := by
  have hnb : n ∈ insert start (boundsFinset grid) :=
    Finset.mem_insert_of_mem
      (mem_boundsFinset_of_valid (is_valid_of_mem_get_neighbors hn))
  unfold greedyRelax
  by_cases hnv : n ∈ s.visited
  · rw [if_pos hnv]
    exact ⟨hkb, Or.inl rfl⟩
  · rw [if_neg hnv]
    rcases hgn : lookup s.g_score n with _ | gn
    · simp only [hgn]
      rw [if_pos trivial]
      have hkb' : KeysBound grid start
          ((n, gadd ((lookup s.g_score current).getD (0, 0)) (stepCost current n))
            :: s.g_score) := by
        intro c hc
        rw [keysF_cons] at hc
        rcases Finset.mem_insert.mp hc with rfl | hc
        · exact hnb
        · exact hkb c hc
      exact ⟨hkb', Or.inr (muG_lt_of_new hkb' hgn)⟩
    · simp only [hgn]
      by_cases hlt : gltB (gadd ((lookup s.g_score current).getD (0, 0))
          (stepCost current n)) gn = true
      · rw [if_pos hlt]
        have hmemn : n ∈ keysF s.g_score :=
          List.mem_toFinset.mpr (lookup_mem_keys hgn)
        have hkb' : KeysBound grid start
            ((n, gadd ((lookup s.g_score current).getD (0, 0)) (stepCost current n))
              :: s.g_score) := by
          intro c hc
          rw [keysF_cons, Finset.insert_eq_self.mpr hmemn] at hc
          exact hkb c hc
        exact ⟨hkb', Or.inr (muG_lt_of_improve hgn ((gltB_iff _ _).mp hlt))⟩
      · rw [if_neg (by simpa using hlt)]
        exact ⟨hkb, Or.inl rfl⟩

theorem greedyFold_measure (grid : Grid) (start target current : Cell) :
    ∀ (l : List Cell) (s : GreedyState),
      (∀ n ∈ l, n ∈ get_neighbors grid current) →
      KeysBound grid start s.g_score →
      KeysBound grid start (l.foldl (greedyRelax grid target current) s).g_score ∧
      (l.foldl (greedyRelax grid target current) s = s ∨
        lexLt (muG grid (l.foldl (greedyRelax grid target current) s).g_score)
          (muG grid s.g_score)) := by
  intro l
  induction l with
  | nil => intro s _ hkb; exact ⟨hkb, Or.inl rfl⟩
  | cons x xs ih =>
    intro s hl hkb
    obtain ⟨i1, i2⟩ := greedyRelax_measure grid start target current
      (hl x (List.mem_cons_self x xs)) hkb
    simp only [List.foldl_cons]
    rcases i2 with heq | hlex
    · rw [heq]
      exact ih s (fun n hn => hl n (List.mem_cons_of_mem x hn)) hkb
    · obtain ⟨j1, j2⟩ := ih (greedyRelax grid target current s x)
        (fun n hn => hl n (List.mem_cons_of_mem x hn)) i1
      refine ⟨j1, Or.inr ?_⟩
      rcases j2 with heq2 | hlex2
      · rw [heq2]
        exact hlex
      · exact lexLt_trans hlex2 hlex

/-- Combined loop measure for Greedy BFS. -/
noncomputable def muGr (grid : Grid) (s : GreedyState) : Nat × Nat × Nat :=
  ((muG grid s.g_score).1, (muG grid s.g_score).2, s.open_set.length)

theorem greedyLoop_terminates (grid : Grid) (start target : Cell) :
    ∀ s : GreedyState, KeysBound grid start s.g_score →
      ∃ (n : Nat) (r : SearchResult), greedyLoop grid target n s = some r := by
  have wf3 : WellFounded (Prod.Lex (α := Nat) (· < ·)
      (Prod.Lex (α := Nat) (β := Nat) (· < ·) (· < ·))) :=
    WellFounded.prod_lex wellFounded_lt
      (WellFounded.prod_lex wellFounded_lt wellFounded_lt)
  intro s0 hk0
  refine (wf3.induction (C := fun m => ∀ s : GreedyState, muGr grid s = m →
    KeysBound grid start s.g_score →
    ∃ (n : Nat) (r : SearchResult), greedyLoop grid target n s = some r)
    (muGr grid s0) ?_) s0 rfl hk0
  intro m IH s hm hk
  subst hm
  rcases hpop : popMin entryLtP s.open_set with _ | ⟨e, rest⟩
  · exact ⟨1, ([], s.visited), by simp [greedyLoop, hpop]⟩
  · by_cases hct : e.2 = target
    · refine ⟨1, (reconstruct_path s.came_from e.2, s.visited ++ [e.2]), ?_⟩
      simp only [greedyLoop, hpop]
      rw [if_pos hct]
    · have hkb2 : KeysBound grid start
          (GreedyState.mk rest s.came_from (s.visited ++ [e.2]) s.g_score).g_score := hk
      obtain ⟨j1, j2⟩ := greedyFold_measure grid start target e.2
        (get_neighbors grid e.2)
        (GreedyState.mk rest s.came_from (s.visited ++ [e.2]) s.g_score)
        (fun n hn => hn) hkb2
      have hlen : rest.length + 1 = s.open_set.length := popMin_length hpop
      have hdec : Prod.Lex (· < ·) (Prod.Lex (· < ·) (· < ·))
          (muGr grid ((get_neighbors grid e.2).foldl (greedyRelax grid target e.2)
            (GreedyState.mk rest s.came_from (s.visited ++ [e.2]) s.g_score)))
          (muGr grid s) := by
        rcases j2 with heq | hlex
        · rw [heq]
          unfold muGr
          dsimp only
          exact Prod.Lex.right _ (Prod.Lex.right _ (by omega))
        · rcases hlex with h | ⟨h1, h2⟩
          · exact Prod.Lex.left _ _ h
          · unfold muGr
            rw [h1]
            exact Prod.Lex.right _ (Prod.Lex.left _ _ h2)
      obtain ⟨nn, r, hr⟩ := IH _ hdec _ rfl j1
      refine ⟨nn + 1, r, ?_⟩
      simp only [greedyLoop, hpop]
      rw [if_neg hct]
      exact hr

theorem dijkstraRelax_measure (grid : Grid) (start current : Cell) (cd : GVal)
    {s : DijkstraState} {n : Cell} (hn : n ∈ get_neighbors grid current)
    (hkb : KeysBound grid start s.distances) :
    KeysBound grid start (dijkstraRelax grid current cd s n).distances ∧
    (dijkstraRelax grid current cd s n = s ∨
      lexLt (muG grid (dijkstraRelax grid current cd s n).distances)
        (muG grid s.distances)) := by
  have hnb : n ∈ insert start (boundsFinset grid) :=
    Finset.mem_insert_of_mem
      (mem_boundsFinset_of_valid (is_valid_of_mem_get_neighbors hn))
  unfold dijkstraRelax
  rcases hgn : lookup s.distances n with _ | gn
  · simp only [hgn]
    rw [if_pos trivial]
    have hkb' : KeysBound grid start
        ((n, gadd cd (stepCost current n)) :: s.distances) := by
      intro c hc
      rw [keysF_cons] at hc
      rcases Finset.mem_insert.mp hc with rfl | hc
      · exact hnb
      · exact hkb c hc
    exact ⟨hkb', Or.inr (muG_lt_of_new hkb' hgn)⟩
  · simp only [hgn]
    by_cases hlt : gltB (gadd cd (stepCost current n)) gn = true
    · rw [if_pos hlt]
      have hmemn : n ∈ keysF s.distances :=
        List.mem_toFinset.mpr (lookup_mem_keys hgn)
      have hkb' : KeysBound grid start
          ((n, gadd cd (stepCost current n)) :: s.distances) := by
        intro c hc
        rw [keysF_cons, Finset.insert_eq_self.mpr hmemn] at hc
        exact hkb c hc
      exact ⟨hkb', Or.inr (muG_lt_of_improve hgn ((gltB_iff _ _).mp hlt))⟩
    · rw [if_neg (by simpa using hlt)]
      exact ⟨hkb, Or.inl rfl⟩

theorem dijkstraFold_measure (grid : Grid) (start current : Cell) (cd : GVal) :
    ∀ (l : List Cell) (s : DijkstraState),
      (∀ n ∈ l, n ∈ get_neighbors grid current) →
      KeysBound grid start s.distances →
      KeysBound grid start (l.foldl (dijkstraRelax grid current cd) s).distances ∧
      (l.foldl (dijkstraRelax grid current cd) s = s ∨
        lexLt (muG grid (l.foldl (dijkstraRelax grid current cd) s).distances)
          (muG grid s.distances)) := by
  intro l
  induction l with
  | nil => intro s _ hkb; exact ⟨hkb, Or.inl rfl⟩
  | cons x xs ih =>
    intro s hl hkb
    obtain ⟨i1, i2⟩ := dijkstraRelax_measure grid start current cd
      (hl x (List.mem_cons_self x xs)) hkb
    simp only [List.foldl_cons]
    rcases i2 with heq | hlex
    · rw [heq]
      exact ih s (fun n hn => hl n (List.mem_cons_of_mem x hn)) hkb
    · obtain ⟨j1, j2⟩ := ih (dijkstraRelax grid current cd s x)
        (fun n hn => hl n (List.mem_cons_of_mem x hn)) i1
      refine ⟨j1, Or.inr ?_⟩
      rcases j2 with heq2 | hlex2
      · rw [heq2]
        exact hlex
      · exact lexLt_trans hlex2 hlex

/-- Combined loop measure for Dijkstra. -/
noncomputable def muD (grid : Grid) (s : DijkstraState) : Nat × Nat × Nat :=
  ((muG grid s.distances).1, (muG grid s.distances).2, s.pq.length)

theorem dijkstraLoop_terminates (grid : Grid) (start target : Cell) :
    ∀ s : DijkstraState, KeysBound grid start s.distances →
      ∃ (n : Nat) (r : SearchResult), dijkstraLoop grid target n s = some r := by
  have wf3 : WellFounded (Prod.Lex (α := Nat) (· < ·)
      (Prod.Lex (α := Nat) (β := Nat) (· < ·) (· < ·))) :=
    WellFounded.prod_lex wellFounded_lt
      (WellFounded.prod_lex wellFounded_lt wellFounded_lt)
  intro s0 hk0
  refine (wf3.induction (C := fun m => ∀ s : DijkstraState, muD grid s = m →
    KeysBound grid start s.distances →
    ∃ (n : Nat) (r : SearchResult), dijkstraLoop grid target n s = some r)
    (muD grid s0) ?_) s0 rfl hk0
  intro m IH s hm hk
  subst hm
  rcases hpop : popMin entryLtG s.pq with _ | ⟨e, rest⟩
  · exact ⟨1, ([], s.visited), by simp [dijkstraLoop, hpop]⟩
  · have hlen : rest.length + 1 = s.pq.length := popMin_length hpop
    by_cases hct : e.2 = target
    · refine ⟨1, (reconstruct_path s.came_from e.2, s.visited ++ [e.2]), ?_⟩
      simp only [dijkstraLoop, hpop]
      rw [if_pos hct]
    · by_cases hst : gltB ((lookup (DijkstraState.mk rest s.came_from s.distances
          (s.visited ++ [e.2])).distances e.2).getD (0, 0)) e.1 = true
      · -- stale pop: only the frontier shrinks
        have hdec : Prod.Lex (· < ·) (Prod.Lex (· < ·) (· < ·))
            (muD grid (DijkstraState.mk rest s.came_from s.distances
              (s.visited ++ [e.2])))
            (muD grid s) := by
          unfold muD
          dsimp only
          exact Prod.Lex.right _ (Prod.Lex.right _ (by omega))
        obtain ⟨nn, r, hr⟩ := IH _ hdec _ rfl hk
        refine ⟨nn + 1, r, ?_⟩
        simp only [dijkstraLoop, hpop]
        rw [if_neg hct, if_pos hst]
        exact hr
      · have hkb2 : KeysBound grid start
            (DijkstraState.mk rest s.came_from s.distances
              (s.visited ++ [e.2])).distances := hk
        obtain ⟨j1, j2⟩ := dijkstraFold_measure grid start e.2 e.1
          (get_neighbors grid e.2)
          (DijkstraState.mk rest s.came_from s.distances (s.visited ++ [e.2]))
          (fun n hn => hn) hkb2
        have hdec : Prod.Lex (· < ·) (Prod.Lex (· < ·) (· < ·))
            (muD grid ((get_neighbors grid e.2).foldl (dijkstraRelax grid e.2 e.1)
              (DijkstraState.mk rest s.came_from s.distances (s.visited ++ [e.2]))))
            (muD grid s) := by
          rcases j2 with heq | hlex
          · rw [heq]
            unfold muD
            dsimp only
            exact Prod.Lex.right _ (Prod.Lex.right _ (by omega))
          · rcases hlex with h | ⟨h1, h2⟩
            · exact Prod.Lex.left _ _ h
            · unfold muD
              rw [h1]
              exact Prod.Lex.right _ (Prod.Lex.left _ _ h2)
        obtain ⟨nn, r, hr⟩ := IH _ hdec _ rfl j1
        refine ⟨nn + 1, r, ?_⟩
        simp only [dijkstraLoop, hpop]
        rw [if_neg hct, if_neg (by simpa using hst)]
        exact hr

/-- C7: on well-formed input (rectangular binary grid, in-bounds start
and target, start free) every engine terminates: some fuel bound makes
the fuel-indexed loop return a `(path, visited_order)` pair, because
each push strictly improves a cell's g-score, g-score values below a
bound are finitely many, the cost-map keys are confined to the grid,
and the frontier shrinks when nothing is pushed. -/
theorem C7_termination (e : Engine) (grid : Grid) (s t : Cell)
    (hrect : rectangular grid = true) (hbin : binaryGrid grid = true)
    (hs : is_valid grid s = true)
    (ht : 0 ≤ t.1 ∧ t.1 < (rowsOf grid : Int) ∧ 0 ≤ t.2 ∧ t.2 < (colsOf grid : Int)) :
    ∃ (fuel : Nat) (p v : List Cell), find_path e fuel grid s t = some (p, v) := by
  by_cases hvt : is_valid grid t = true
  · have hkinit : KeysBound grid s [(s, ((0, 0) : GVal))] := by
      intro c hc
      have hcs : c = s := by simpa [keysF] using hc
      rw [hcs]
      exact Finset.mem_insert_self s _
    cases e with
    | astar =>
      obtain ⟨n, r, hr⟩ := astarLoop_terminates grid s t
        (AStarState.mk [(fval (0, 0) (hsq s t), s)] [] [] [(s, (0, 0))]
          [(s, fval (0, 0) (hsq s t))] []) hkinit
      refine ⟨n, r.1, r.2, ?_⟩
      show astar_find_path n grid s t = some (r.1, r.2)
      unfold astar_find_path
      rw [if_neg (by simp [hvt])]
      dsimp only
      rw [Prod.mk.eta]
      exact hr
    | dijkstra =>
      obtain ⟨n, r, hr⟩ := dijkstraLoop_terminates grid s t
        (DijkstraState.mk [((0, 0), s)] [] [(s, (0, 0))] []) hkinit
      refine ⟨n, r.1, r.2, ?_⟩
      show dijkstra_find_path n grid s t = some (r.1, r.2)
      unfold dijkstra_find_path
      rw [if_neg (by simp [hvt])]
      rw [Prod.mk.eta]
      exact hr
    | greedy =>
      obtain ⟨n, r, hr⟩ := greedyLoop_terminates grid s t
        (GreedyState.mk [(fval (0, 0) (hsq s t), s)] [] [] [(s, (0, 0))]) hkinit
      refine ⟨n, r.1, r.2, ?_⟩
      show greedy_find_path n grid s t = some (r.1, r.2)
      unfold greedy_find_path
      rw [if_neg (by simp [hvt])]
      dsimp only
      rw [Prod.mk.eta]
      exact hr
  · have hvt' : is_valid grid t = false := by simpa using hvt
    exact ⟨0, [], [], by cases e <;> simp [find_path, astar_find_path,
      dijkstra_find_path, greedy_find_path, hvt']⟩

theorem C7_witness :
    (rectangular [[0]] = true ∧ binaryGrid [[0]] = true ∧
      is_valid [[0]] (0, 0) = true ∧
      (0 ≤ ((0, 0) : Cell).1 ∧ ((0, 0) : Cell).1 < (rowsOf [[0]] : Int) ∧
        0 ≤ ((0, 0) : Cell).2 ∧ ((0, 0) : Cell).2 < (colsOf [[0]] : Int))) ∧
    (∃ (fuel : Nat) (p v : List Cell),
      find_path .greedy fuel [[0]] (0, 0) (0, 0) = some (p, v)) :=
  ⟨⟨by decide, by decide, by decide, by decide⟩,
    C7_termination .greedy [[0]] (0, 0) (0, 0) (by decide) (by decide)
      (by decide) (by decide)⟩

/-! ### Correctness of the exact comparators against the real order

The searches compare priorities `a + b * sqrt 2 + sqrt m` through the
integer procedures `sign2`, `sign3` and `cmpPVal`.  The following
theorems verify that these procedures compute exactly the order of the
denoted real numbers, so the embedding's pop order is the idealized
real-number order that the floating-point comparisons approximate. -/

theorem sign2_pos_iff (x y : Int) (k : Nat) :
    sign2 x y k = 1 ↔ 0 < (x : ℝ) + (y : ℝ) * Real.sqrt k := by
  unfold sign2
  by_cases hk : k = 0 ∨ y = 0
  · rcases hk with hk | hy
    · subst hk
      simp [Int.sign_eq_one_iff_pos, Real.sqrt_zero]
    · subst hy
      simp [Int.sign_eq_one_iff_pos]
  · push_neg at hk
    obtain ⟨hk0, hy0⟩ := hk
    have hkR : (0 : ℝ) < Real.sqrt k :=
      Real.sqrt_pos.mpr (by exact_mod_cast Nat.pos_of_ne_zero hk0)
    have hsq : Real.sqrt k * Real.sqrt k = (k : ℝ) :=
      Real.mul_self_sqrt (by positivity)
    simp only [if_neg (by tauto : ¬ (k = 0 ∨ y = 0))]
    by_cases hy : 0 < y
    · have hy' : (0 : ℝ) < y := by exact_mod_cast hy
      simp only [if_pos hy]
      by_cases hx : 0 ≤ x
      · simp only [if_pos hx]
        have hx' : (0 : ℝ) ≤ x := by exact_mod_cast hx
        have hpos : (0 : ℝ) < (x : ℝ) + y * Real.sqrt k := by nlinarith
        simp [hpos]
      · simp only [if_neg hx, Int.sign_eq_one_iff_pos]
        push_neg at hx
        have hx' : (x : ℝ) < 0 := by exact_mod_cast hx
        have hd : (x : ℝ) - y * Real.sqrt k < 0 := by nlinarith
        constructor
        · intro h
          have h' : ((x ^ 2 : Int) : ℝ) < ((y ^ 2 * k : Int) : ℝ) := by
            exact_mod_cast sub_pos.mp h
          push_cast at h'
          by_contra hge
          push_neg at hge
          have hprod : 0 ≤ (-((x : ℝ) + y * Real.sqrt k)) * ((y : ℝ) * Real.sqrt k - x) :=
            mul_nonneg (by linarith) (by nlinarith)
          nlinarith
        · intro h
          have hprod : 0 < ((x : ℝ) + y * Real.sqrt k) * ((y : ℝ) * Real.sqrt k - x) :=
            mul_pos h (by nlinarith)
          have h' : (x ^ 2 : Int) < (y ^ 2 * k : Int) := by
            have : ((x : ℝ)) ^ 2 < ((y : ℝ)) ^ 2 * (k : ℝ) := by nlinarith
            exact_mod_cast this
          omega
    · simp only [if_neg hy]
      have hy' : y < 0 := by omega
      have hyR : (y : ℝ) < 0 := by exact_mod_cast hy'
      by_cases hx : x ≤ 0
      · simp only [if_pos hx]
        have hx' : (x : ℝ) ≤ 0 := by exact_mod_cast hx
        have hneg : (x : ℝ) + y * Real.sqrt k < 0 := by nlinarith
        constructor
        · intro h; omega
        · intro h; linarith
      · simp only [if_neg hx, Int.sign_eq_one_iff_pos]
        push_neg at hx
        have hx' : (0 : ℝ) < x := by exact_mod_cast hx
        have hd : 0 < (x : ℝ) - y * Real.sqrt k := by nlinarith
        constructor
        · intro h
          have h' : ((y ^ 2 * k : Int) : ℝ) < ((x ^ 2 : Int) : ℝ) := by
            exact_mod_cast sub_pos.mp h
          push_cast at h'
          by_contra hge
          push_neg at hge
          have hprod : 0 ≤ (-((x : ℝ) + y * Real.sqrt k)) * ((x : ℝ) - y * Real.sqrt k) :=
            mul_nonneg (by linarith) (le_of_lt hd)
          nlinarith
        · intro h
          have hprod : 0 < ((x : ℝ) + y * Real.sqrt k) * ((x : ℝ) - y * Real.sqrt k) :=
            mul_pos h hd
          have h' : (y ^ 2 * k : Int) < (x ^ 2 : Int) := by
            have : ((y : ℝ)) ^ 2 * (k : ℝ) < ((x : ℝ)) ^ 2 := by nlinarith
            exact_mod_cast this
          omega

theorem int_sign_mem (a : Int) :
    Int.sign a = 1 ∨ Int.sign a = 0 ∨ Int.sign a = -1 := by
  rcases Int.lt_trichotomy a 0 with h | h | h
  · exact Or.inr (Or.inr (Int.sign_eq_neg_one_iff_neg.mpr h))
  · subst h; exact Or.inr (Or.inl rfl)
  · exact Or.inl (Int.sign_eq_one_iff_pos.mpr h)

theorem sign2_mem (x y : Int) (k : Nat) :
    sign2 x y k = 1 ∨ sign2 x y k = 0 ∨ sign2 x y k = -1 := by
  unfold sign2
  split_ifs <;>
    first
    | exact int_sign_mem _
    | (left; rfl)
    | (right; right; rfl)

theorem sign2_zero_iff (x y : Int) (k : Nat) :
    sign2 x y k = 0 ↔ (x : ℝ) + (y : ℝ) * Real.sqrt k = 0 := by
  rcases sign2_mem x y k with h | h | h
  · rw [h]
    have hpos := (sign2_pos_iff x y k).mp h
    exact iff_of_false (by omega) (fun h0 => by rw [h0] at hpos; exact lt_irrefl _ hpos)
  · rw [h]
    have h1 : ¬ (0 < (x : ℝ) + y * Real.sqrt k) := fun hc => by
      have := (sign2_pos_iff x y k).mpr hc
      omega
    have h2 : ¬ ((x : ℝ) + y * Real.sqrt k < 0) := fun hc => by
      have := (sign2_neg_iff x y k).mpr hc
      omega
    exact iff_of_true rfl (le_antisymm (not_lt.mp h1) (not_lt.mp h2))
  · rw [h]
    have hneg := (sign2_neg_iff x y k).mp h
    exact iff_of_false (by omega) (fun h0 => by rw [h0] at hneg; exact lt_irrefl _ hneg)

/-- Sign analysis of a sum of a positive and a negative real via their
squares: the common step of `sign3` and `cmpPVal`. -/
theorem sum_sign_of_pos_neg {L R : ℝ} (hL : 0 < L) (hR : R < 0) :
    (0 < L + R ↔ R ^ 2 < L ^ 2) ∧ (L + R = 0 ↔ L ^ 2 - R ^ 2 = 0) ∧
    (L + R < 0 ↔ L ^ 2 < R ^ 2) := by
  have hLR : 0 < L - R := by linarith
  refine ⟨⟨?_, ?_⟩, ⟨?_, ?_⟩, ⟨?_, ?_⟩⟩
  · intro h; nlinarith
  · intro h; nlinarith [mul_pos hLR (show (0:ℝ) < L + R by nlinarith)]
  · intro h; nlinarith
  · intro h
    have hfac : (L + R) * (L - R) = 0 := by nlinarith
    rcases mul_eq_zero.mp hfac with h1 | h1
    · exact h1
    · linarith
  · intro h; nlinarith
  · intro h; nlinarith [mul_pos (show (0:ℝ) < -(L + R) by nlinarith) hLR]

theorem sqrt_nat_two : Real.sqrt ((2 : Nat) : ℝ) = Real.sqrt 2 := by norm_num

theorem sign3_spec (x y z : Int) (n : Nat) :
    (sign3 x y z n = 1 ↔ 0 < (x : ℝ) + y * Real.sqrt 2 + z * Real.sqrt n) ∧
    (sign3 x y z n = 0 ↔ (x : ℝ) + y * Real.sqrt 2 + z * Real.sqrt n = 0) ∧
    (sign3 x y z n = -1 ↔ (x : ℝ) + y * Real.sqrt 2 + z * Real.sqrt n < 0) := by
  have e2 : Real.sqrt ((2 : Nat) : ℝ) = Real.sqrt 2 := sqrt_nat_two
  have s2pos := sign2_pos_iff x y 2
  have s2zero := sign2_zero_iff x y 2
  have s2neg := sign2_neg_iff x y 2
  rw [e2] at s2pos s2zero s2neg
  unfold sign3
  by_cases hzn : z = 0 ∨ n = 0
  · rw [if_pos hzn]
    have hz : (z : ℝ) * Real.sqrt n = 0 := by
      rcases hzn with h | h
      · subst h; simp
      · subst h; simp
    rw [show (x : ℝ) + y * Real.sqrt 2 + z * Real.sqrt n =
        (x : ℝ) + y * Real.sqrt 2 by rw [hz]; ring]
    exact ⟨s2pos, s2zero, s2neg⟩
  · rw [if_neg hzn]
    push_neg at hzn
    obtain ⟨hz0, hn0⟩ := hzn
    have hnR : (0 : ℝ) < Real.sqrt n :=
      Real.sqrt_pos.mpr (by exact_mod_cast Nat.pos_of_ne_zero hn0)
    have hsqn : Real.sqrt n * Real.sqrt n = (n : ℝ) :=
      Real.mul_self_sqrt (by positivity)
    have hsq2 : Real.sqrt 2 * Real.sqrt 2 = (2 : ℝ) :=
      Real.mul_self_sqrt (by norm_num)
    set L : ℝ := (x : ℝ) + y * Real.sqrt 2 with hLdef
    set R : ℝ := (z : ℝ) * Real.sqrt n with hRdef
    have hQ : ((x ^ 2 + 2 * y ^ 2 - z ^ 2 * n : Int) : ℝ) +
        ((2 * x * y : Int) : ℝ) * Real.sqrt 2 = L ^ 2 - R ^ 2 := by
      rw [hLdef, hRdef]
      push_cast
      nlinarith [hsq2, hsqn]
    have sQpos := sign2_pos_iff (x ^ 2 + 2 * y ^ 2 - z ^ 2 * n) (2 * x * y) 2
    have sQzero := sign2_zero_iff (x ^ 2 + 2 * y ^ 2 - z ^ 2 * n) (2 * x * y) 2
    have sQneg := sign2_neg_iff (x ^ 2 + 2 * y ^ 2 - z ^ 2 * n) (2 * x * y) 2
    rw [e2, hQ] at sQpos sQzero sQneg
    by_cases hsL : sign2 x y 2 = 0
    · rw [if_pos hsL]
      have hL0 : L = 0 := s2zero.mp hsL
      rw [show L + R = R by rw [hL0]; ring] at *
      rcases int_sign_mem z with hs | hs | hs
    -- the three goals: relate Int.sign z to the sign of R
      · have hzpos : 0 < z := Int.sign_eq_one_iff_pos.mp hs
        have hR : 0 < R := by
          rw [hRdef]
          have : (0 : ℝ) < (z : ℝ) := by exact_mod_cast hzpos
          positivity
        rw [hs]
        exact ⟨iff_of_true rfl hR, iff_of_false (by omega) (by linarith),
          iff_of_false (by omega) (by linarith)⟩
      · exact absurd (Int.sign_eq_zero_iff_zero.mp hs) hz0
      · have hzneg : z < 0 := Int.sign_eq_neg_one_iff_neg.mp hs
        have hR : R < 0 := by
          rw [hRdef]
          have h1 : (z : ℝ) < 0 := by exact_mod_cast hzneg
          nlinarith
        rw [hs]
        exact ⟨iff_of_false (by omega) (by linarith),
          iff_of_false (by omega) (by linarith), iff_of_true rfl hR⟩
    · rw [if_neg hsL]
      rcases sign2_mem x y 2 with hsl | hsl | hsl
      · -- L > 0
        have hL : 0 < L := s2pos.mp hsl
        rcases int_sign_mem z with hs | hs | hs
        · -- R > 0 : same sign, branch sL = sR taken
          have hR : 0 < R := by
            rw [hRdef]
            have : (0 : ℝ) < (z : ℝ) := by exact_mod_cast Int.sign_eq_one_iff_pos.mp hs
            positivity
          rw [hsl, hs, if_pos rfl]
          exact ⟨iff_of_true rfl (by linarith), iff_of_false (by omega) (by linarith),
            iff_of_false (by omega) (by linarith)⟩
        · exact absurd (Int.sign_eq_zero_iff_zero.mp hs) hz0
        · -- R < 0 : opposite signs, square comparison
          have hR : R < 0 := by
            rw [hRdef]
            have h1 : (z : ℝ) < 0 := by exact_mod_cast Int.sign_eq_neg_one_iff_neg.mp hs
            nlinarith
          rw [hsl, hs, if_neg (by omega), if_pos rfl]
          obtain ⟨e1, e2', e3⟩ := sum_sign_of_pos_neg hL hR
          refine ⟨?_, ?_, ?_⟩
          · rw [sQpos, e1]
            constructor <;> intro hh <;> linarith
          · rw [sQzero]
            exact e2'.symm
          · rw [sQneg, e3]
            constructor <;> intro hh <;> linarith
      · exact absurd hsl hsL
      · -- L < 0
        have hL : L < 0 := s2neg.mp hsl
        rcases int_sign_mem z with hs | hs | hs
        · -- R > 0 : opposite signs
          have hR : 0 < R := by
            rw [hRdef]
            have : (0 : ℝ) < (z : ℝ) := by exact_mod_cast Int.sign_eq_one_iff_pos.mp hs
            positivity
          rw [hsl, hs, if_neg (by omega), if_neg (by omega)]
          obtain ⟨e1, e2', e3⟩ := sum_sign_of_pos_neg hR hL
          rw [show R + L = L + R by ring] at e1 e2' e3
          refine ⟨?_, ?_, ?_⟩
          · have hiff : -sign2 (x ^ 2 + 2 * y ^ 2 - z ^ 2 * n) (2 * x * y) 2 = 1 ↔
                sign2 (x ^ 2 + 2 * y ^ 2 - z ^ 2 * n) (2 * x * y) 2 = -1 := by omega
            rw [hiff, sQneg, e1]
            constructor <;> intro hh <;> linarith
          · have hiff : -sign2 (x ^ 2 + 2 * y ^ 2 - z ^ 2 * n) (2 * x * y) 2 = 0 ↔
                sign2 (x ^ 2 + 2 * y ^ 2 - z ^ 2 * n) (2 * x * y) 2 = 0 := by omega
            rw [hiff, sQzero]
            constructor
            · intro hh
              exact e2'.mpr (by linarith)
            · intro hh
              have h9 := e2'.mp hh
              linarith
          · have hiff : -sign2 (x ^ 2 + 2 * y ^ 2 - z ^ 2 * n) (2 * x * y) 2 = -1 ↔
                sign2 (x ^ 2 + 2 * y ^ 2 - z ^ 2 * n) (2 * x * y) 2 = 1 := by omega
            rw [hiff, sQpos, e3]
            constructor <;> intro hh <;> linarith
        · exact absurd (Int.sign_eq_zero_iff_zero.mp hs) hz0
        · -- R < 0 : same sign
          have hR : R < 0 := by
            rw [hRdef]
            have h1 : (z : ℝ) < 0 := by exact_mod_cast Int.sign_eq_neg_one_iff_neg.mp hs
            nlinarith
          rw [hsl, hs, if_pos rfl]
          exact ⟨iff_of_false (by omega) (by linarith),
            iff_of_false (by omega) (by linarith), iff_of_true rfl (by linarith)⟩

theorem cmpGVal_zero_iff (a b : GVal) : cmpGVal a b = 0 ↔ gval a = gval b := by
  unfold cmpGVal
  rw [sign2_zero_iff]
  unfold gval
  rw [sqrt_nat_two]
  constructor
  · intro h; push_cast at h; linarith
  · intro h; push_cast; linarith

theorem cmpPVal_spec (p q : PVal) :
    (cmpPVal p q = -1 ↔ pval p < pval q) ∧
    (cmpPVal p q = 0 ↔ pval p = pval q) ∧
    (cmpPVal p q = 1 ↔ pval q < pval p) := by
  obtain ⟨a1, b1, m1⟩ := p
  obtain ⟨a2, b2, m2⟩ := q
  have hsq1 : Real.sqrt m1 * Real.sqrt m1 = (m1 : ℝ) :=
    Real.mul_self_sqrt (by positivity)
  have hsq2 : Real.sqrt m2 * Real.sqrt m2 = (m2 : ℝ) :=
    Real.mul_self_sqrt (by positivity)
  have hsqrt2 : Real.sqrt 2 * Real.sqrt 2 = (2 : ℝ) :=
    Real.mul_self_sqrt (by norm_num)
  set X : Int := (a1 : Int) - a2 with hX
  set Y : Int := (b1 : Int) - b2 with hY
  set L : ℝ := (X : ℝ) + (Y : ℝ) * Real.sqrt 2 with hL
  set D : ℝ := Real.sqrt m1 - Real.sqrt m2 with hD
  have hE : pval (a1, b1, m1) - pval (a2, b2, m2) = L + D := by
    unfold pval
    rw [hL, hD, hX, hY]
    push_cast
    ring
  have hlt : pval (a1, b1, m1) < pval (a2, b2, m2) ↔ L + D < 0 := by
    rw [← hE]; constructor <;> intro hh <;> linarith
  have heq : pval (a1, b1, m1) = pval (a2, b2, m2) ↔ L + D = 0 := by
    rw [← hE]; constructor <;> intro hh <;> linarith
  have hgt : pval (a2, b2, m2) < pval (a1, b1, m1) ↔ 0 < L + D := by
    rw [← hE]; constructor <;> intro hh <;> linarith
  rw [hlt, heq, hgt]
  have e2 : Real.sqrt ((2 : Nat) : ℝ) = Real.sqrt 2 := sqrt_nat_two
  have s2pos := sign2_pos_iff X Y 2
  have s2zero := sign2_zero_iff X Y 2
  have s2neg := sign2_neg_iff X Y 2
  rw [e2, ← hL] at s2pos s2zero s2neg
  unfold cmpPVal
  simp only
  rw [← hX, ← hY]
  by_cases hm : m1 = m2
  · rw [if_pos hm]
    have hD0 : D = 0 := by rw [hD, hm]; ring
    rw [hD0]
    simp only [add_zero]
    exact ⟨s2neg, s2zero, s2pos⟩
  · rw [if_neg hm]
    have hQ3 : ((X ^ 2 + 2 * Y ^ 2 - m1 - m2 : Int) : ℝ) +
        ((2 * X * Y : Int) : ℝ) * Real.sqrt 2 +
        ((2 : Int) : ℝ) * Real.sqrt ((m1 * m2 : Nat) : ℝ) = L ^ 2 - D ^ 2 := by
      have hmm : Real.sqrt ((m1 * m2 : Nat) : ℝ) = Real.sqrt m1 * Real.sqrt m2 := by
        push_cast
        rw [Real.sqrt_mul (by positivity)]
      have expand : L ^ 2 - D ^ 2 =
          (X : ℝ) ^ 2 + (Y : ℝ) ^ 2 * (Real.sqrt 2 * Real.sqrt 2) +
          2 * X * Y * Real.sqrt 2 - Real.sqrt m1 * Real.sqrt m1 +
          2 * (Real.sqrt m1 * Real.sqrt m2) - Real.sqrt m2 * Real.sqrt m2 := by
        rw [hL, hD]
        ring
      rw [hmm, expand, hsqrt2, hsq1, hsq2]
      push_cast
      ring
    obtain ⟨s3pos, s3zero, s3neg⟩ :=
      sign3_spec (X ^ 2 + 2 * Y ^ 2 - m1 - m2) (2 * X * Y) 2 (m1 * m2)
    rw [hQ3] at s3pos s3zero s3neg
    by_cases hsL0 : sign2 X Y 2 = 0
    · rw [if_pos hsL0]
      have hL0 : L = 0 := s2zero.mp hsL0
      rw [hL0]
      simp only [zero_add]
      rcases Nat.lt_trichotomy m1 m2 with hmm | hmm | hmm
      · have hDneg : D < 0 := by
          rw [hD]
          have := Real.sqrt_lt_sqrt (Nat.cast_nonneg m1)
            (show (m1 : ℝ) < m2 by exact_mod_cast hmm)
          linarith
        have hsd : Int.sign ((m1 : Int) - m2) = -1 :=
          Int.sign_eq_neg_one_iff_neg.mpr (by omega)
        rw [hsd]
        exact ⟨iff_of_true rfl hDneg, iff_of_false (by omega) (by linarith),
          iff_of_false (by omega) (by linarith)⟩
      · exact absurd hmm hm
      · have hDpos : 0 < D := by
          rw [hD]
          have := Real.sqrt_lt_sqrt (Nat.cast_nonneg m2)
            (show (m2 : ℝ) < m1 by exact_mod_cast hmm)
          linarith
        have hsd : Int.sign ((m1 : Int) - m2) = 1 :=
          Int.sign_eq_one_iff_pos.mpr (by omega)
        rw [hsd]
        exact ⟨iff_of_false (by omega) (by linarith),
          iff_of_false (by omega) (by linarith), iff_of_true rfl hDpos⟩
    · rw [if_neg hsL0]
      rcases sign2_mem X Y 2 with hsl | hsl | hsl
      · -- L > 0
        have hLpos : 0 < L := s2pos.mp hsl
        rcases Nat.lt_trichotomy m1 m2 with hmm | hmm | hmm
        · -- D < 0 : opposite signs
          have hDneg : D < 0 := by
            rw [hD]
            have := Real.sqrt_lt_sqrt (Nat.cast_nonneg m1)
              (show (m1 : ℝ) < m2 by exact_mod_cast hmm)
            linarith
          have hsd : Int.sign ((m1 : Int) - m2) = -1 :=
            Int.sign_eq_neg_one_iff_neg.mpr (by omega)
          rw [hsl, hsd, if_neg (by omega), if_pos rfl]
          obtain ⟨e1, e2', e3⟩ := sum_sign_of_pos_neg hLpos hDneg
          refine ⟨?_, ?_, ?_⟩
          · rw [s3neg, e3]
            constructor <;> intro hh <;> linarith
          · rw [s3zero]
            exact e2'.symm
          · rw [s3pos, e1]
            constructor <;> intro hh <;> linarith
        · exact absurd hmm hm
        · -- D > 0 : same sign, positive
          have hDpos : 0 < D := by
            rw [hD]
            have := Real.sqrt_lt_sqrt (Nat.cast_nonneg m2)
              (show (m2 : ℝ) < m1 by exact_mod_cast hmm)
            linarith
          have hsd : Int.sign ((m1 : Int) - m2) = 1 :=
            Int.sign_eq_one_iff_pos.mpr (by omega)
          rw [hsl, hsd, if_pos rfl]
          exact ⟨iff_of_false (by omega) (by linarith),
            iff_of_false (by omega) (by linarith), iff_of_true rfl (by linarith)⟩
      · exact absurd hsl hsL0
      · -- L < 0
        have hLneg : L < 0 := s2neg.mp hsl
        rcases Nat.lt_trichotomy m1 m2 with hmm | hmm | hmm
        · -- D < 0 : same sign, negative
          have hDneg : D < 0 := by
            rw [hD]
            have := Real.sqrt_lt_sqrt (Nat.cast_nonneg m1)
              (show (m1 : ℝ) < m2 by exact_mod_cast hmm)
            linarith
          have hsd : Int.sign ((m1 : Int) - m2) = -1 :=
            Int.sign_eq_neg_one_iff_neg.mpr (by omega)
          rw [hsl, hsd, if_pos rfl]
          exact ⟨iff_of_true rfl (by linarith),
            iff_of_false (by omega) (by linarith),
            iff_of_false (by omega) (by linarith)⟩
        · exact absurd hmm hm
        · -- D > 0 : opposite signs
          have hDpos : 0 < D := by
            rw [hD]
            have := Real.sqrt_lt_sqrt (Nat.cast_nonneg m2)
              (show (m2 : ℝ) < m1 by exact_mod_cast hmm)
            linarith
          have hsd : Int.sign ((m1 : Int) - m2) = 1 :=
            Int.sign_eq_one_iff_pos.mpr (by omega)
          rw [hsl, hsd, if_neg (by omega), if_neg (by omega)]
          obtain ⟨e1, e2', e3⟩ := sum_sign_of_pos_neg hDpos hLneg
          rw [show D + L = L + D by ring] at e1 e2' e3
          refine ⟨?_, ?_, ?_⟩
          · have hiff : -sign3 (X ^ 2 + 2 * Y ^ 2 - m1 - m2) (2 * X * Y) 2 (m1 * m2) = -1 ↔
                sign3 (X ^ 2 + 2 * Y ^ 2 - m1 - m2) (2 * X * Y) 2 (m1 * m2) = 1 := by omega
            rw [hiff, s3pos, e3]
            constructor <;> intro hh <;> linarith
          · have hiff : -sign3 (X ^ 2 + 2 * Y ^ 2 - m1 - m2) (2 * X * Y) 2 (m1 * m2) = 0 ↔
                sign3 (X ^ 2 + 2 * Y ^ 2 - m1 - m2) (2 * X * Y) 2 (m1 * m2) = 0 := by omega
            rw [hiff, s3zero]
            constructor
            · intro hh
              exact e2'.mpr (by linarith)
            · intro hh
              have h9 := e2'.mp hh
              linarith
          · have hiff : -sign3 (X ^ 2 + 2 * Y ^ 2 - m1 - m2) (2 * X * Y) 2 (m1 * m2) = 1 ↔
                sign3 (X ^ 2 + 2 * Y ^ 2 - m1 - m2) (2 * X * Y) 2 (m1 * m2) = -1 := by omega
            rw [hiff, s3neg, e1]
            constructor <;> intro hh <;> linarith

end SPV
